import Mathlib

/-!
Shallow embedding of the `twitter-bot` repository (`src/bot.py`, `src/auth.py`).

Text is modelled as `List Char` (Python `str`).  Python's regex-based helpers
are translated into executable recursive functions that mirror the scan
semantics of `re.sub` (left-to-right, non-overlapping, resuming after each
match).  `\s` is modelled over the ASCII whitespace characters, and
`str.lower()` as the character-wise ASCII case map, which is exact on the
ASCII range exercised by the program.  Randomness (`random.sample`) is made
explicit as an oracle argument, and network / file-system effects are made
explicit as input values describing the external response.
-/

set_option maxRecDepth 200000

abbrev Str := List Char

def str (s : String) : Str := s.toList

/-- Python regex `\s` restricted to the ASCII range: space, tab, newline,
carriage return, vertical tab, form feed. -/
def isPyWS (c : Char) : Bool :=
  c = ' ' || c = '\t' || c = '\n' || c = '\r' || c = '\x0b' || c = '\x0c'

/-- The punctuation class `[?.!,]` used by `clean_spacing`. -/
def isPunct (c : Char) : Bool :=
  c = '?' || c = '.' || c = '!' || c = ','

/-- Character-wise model of Python `str.lower()` (ASCII case map). -/
def pyLower (c : Char) : Char :=
  if 65 ≤ c.toNat ∧ c.toNat ≤ 90 then Char.ofNat (c.toNat + 32) else c

/-- `s.lower()` on a whole string. -/
def strLower (s : Str) : Str := s.map pyLower

/-- Left part of Python `str.strip()`. -/
def lstrip (s : Str) : Str := s.dropWhile isPyWS

/-- Right part of Python `str.strip()`. -/
def rstrip (s : Str) : Str := (s.reverse.dropWhile isPyWS).reverse

/-- Python `str.strip()`. -/
def strip (s : Str) : Str := rstrip (lstrip s)

/-- Scanner for `re.sub(r"\s+", " ", s)`; the flag records whether the scan is
inside a whitespace run whose single replacement space was already emitted. -/
def collapseGo : Bool → Str → Str
  | _, [] => []
  | inRun, c :: cs =>
    if isPyWS c then
      if inRun then collapseGo true cs else ' ' :: collapseGo true cs
    else c :: collapseGo false cs

/-- `re.sub(r"\s+", " ", s)`: every maximal whitespace run becomes one space. -/
def collapseWS (s : Str) : Str := collapseGo false s

mutual
/-- Part of `re.sub(r"\s{2,}", " ", s)`: consuming the remainder of a
whitespace run whose single replacement space was already emitted. -/
def c2Skip : Str → Str
  | [] => []
  | c :: cs => if isPyWS c then c2Skip cs else c2Scan c cs

/-- Part of `re.sub(r"\s{2,}", " ", s)`: scanning at character `c` followed by
the rest of the string; a run of at least two whitespace characters becomes
one space, a lone whitespace character is kept unchanged. -/
def c2Scan (c : Char) : Str → Str
  | [] => [c]
  | d :: cs =>
    if isPyWS c && isPyWS d then ' ' :: c2Skip cs
    else c :: c2Scan d cs
end

/-- `re.sub(r"\s{2,}", " ", s)`. -/
def collapseWS2 : Str → Str
  | [] => []
  | c :: cs => c2Scan c cs

/-- `bot.normalize_text`: `re.sub(r"\s+", " ", (text or "").strip()).lower()`. -/
def normalize_text (text : Str) : Str :=
  strLower (collapseWS (strip text))

mutual
/-- Scanner for the first substitution of `bot.clean_spacing`,
`re.sub(r"\s+([?.!,])", r"\1", s)`. -/
def delWsGo : Str → Str
  | [] => []
  | c :: cs => if isPyWS c then delWsRun [c] cs else c :: delWsGo cs

/-- Run accumulator for `re.sub(r"\s+([?.!,])", r"\1", s)`: `run` is the
whitespace run read so far; it is deleted if the run ends at a punctuation
character and kept verbatim otherwise, with the scan resuming after the
match. -/
def delWsRun (run : Str) : Str → Str
  | [] => run
  | c :: cs =>
    if isPyWS c then delWsRun (run ++ [c]) cs
    else if isPunct c then c :: delWsGo cs
    else run ++ c :: delWsGo cs
end

/-- First substitution of `bot.clean_spacing`: delete any whitespace run that
immediately precedes a punctuation character. -/
def delWsBeforePunct (s : Str) : Str := delWsGo s

/-- Second substitution of `bot.clean_spacing`: `re.sub(r"([?.!,])([^\s])", r"\1 \2", s)` —
insert a space between a punctuation character and a following non-whitespace
character; the scan resumes after the two matched characters. -/
def spaceAfterPunct : Str → Str
  | [] => []
  | [c] => [c]
  | c :: d :: cs =>
    if isPunct c && !isPyWS d then c :: ' ' :: d :: spaceAfterPunct cs
    else c :: spaceAfterPunct (d :: cs)

/-- `bot.clean_spacing`. -/
def clean_spacing (text : Str) : Str :=
  strip (collapseWS (spaceAfterPunct (delWsBeforePunct text)))

/-- `bot._trim_to_tweet`. -/
def _trim_to_tweet (text : Str) (limit : Nat := 280) : Str :=
  let t := strip text
  if t.length ≤ limit then t
  else rstrip (t.take (limit - 1)) ++ ['…']

/-! ### SHA-256 (`hashlib.sha256(...).hexdigest()` over the UTF-8 encoding) -/

/-- UTF-8 encoding of one unicode scalar value, as byte values. -/
def utf8Char (n : Nat) : List Nat :=
  if n < 128 then [n]
  else if n < 2048 then [192 + n / 64, 128 + n % 64]
  else if n < 65536 then [224 + n / 4096, 128 + (n / 64) % 64, 128 + n % 64]
  else [240 + n / 262144, 128 + (n / 4096) % 64, 128 + (n / 64) % 64, 128 + n % 64]

/-- `s.encode("utf-8")` as a list of byte values. -/
def utf8Bytes (s : Str) : List Nat :=
  (s.map (fun c => utf8Char c.toNat)).flatten

/-- Truncation to a 32-bit word. -/
def w32 (n : Nat) : Nat := n % 4294967296

/-- 32-bit right rotation. -/
def rotr (k n : Nat) : Nat := w32 ((n >>> k) ||| (n <<< (32 - k)))

def sha256K : List Nat :=
  [1116352408, 1899447441, 3049323471, 3921009573, 961987163, 1508970993, 2453635748, 2870763221,
   3624381080, 310598401, 607225278, 1426881987, 1925078388, 2162078206, 2614888103, 3248222580,
   3835390401, 4022224774, 264347078, 604807628, 770255983, 1249150122, 1555081692, 1996064986,
   2554220882, 2821834349, 2952996808, 3210313671, 3336571891, 3584528711, 113926993, 338241895,
   666307205, 773529912, 1294757372, 1396182291, 1695183700, 1986661051, 2177026350, 2456956037,
   2730485921, 2820302411, 3259730800, 3345764771, 3516065817, 3600352804, 4094571909, 275423344,
   430227734, 506948616, 659060556, 883997877, 958139571, 1322822218, 1537002063, 1747873779,
   1955562222, 2024104815, 2227730452, 2361852424, 2428436474, 2756734187, 3204031479, 3329325298]

def sha256H0 : List Nat :=
  [1779033703, 3144134277, 1013904242, 2773480762, 1359893119, 2600822924, 528734635, 1541459225]

/-- Big-endian byte encoding of `n` in `k` bytes. -/
def toBytesBE : Nat → Nat → List Nat
  | 0, _ => []
  | k + 1, n => toBytesBE k (n / 256) ++ [n % 256]

/-- SHA-256 message padding. -/
def sha256pad (msg : List Nat) : List Nat :=
  msg ++ 128 :: List.replicate ((119 - msg.length % 64) % 64) 0 ++ toBytesBE 8 (8 * msg.length)

/-- Big-endian 32-bit words from bytes. -/
def bytesToWords : List Nat → List Nat
  | b0 :: b1 :: b2 :: b3 :: rest => (((b0 * 256 + b1) * 256 + b2) * 256 + b3) :: bytesToWords rest
  | _ => []

def smallSigma0 (x : Nat) : Nat := (rotr 7 x) ^^^ (rotr 18 x) ^^^ (x >>> 3)
def smallSigma1 (x : Nat) : Nat := (rotr 17 x) ^^^ (rotr 19 x) ^^^ (x >>> 10)
def bigSigma0 (x : Nat) : Nat := (rotr 2 x) ^^^ (rotr 13 x) ^^^ (rotr 22 x)
def bigSigma1 (x : Nat) : Nat := (rotr 6 x) ^^^ (rotr 11 x) ^^^ (rotr 25 x)

/-- Message-schedule extension rounds. -/
def schedRounds : Nat → List Nat → List Nat
  | 0, acc => acc
  | k + 1, acc =>
    let t := acc.length
    let nw := w32 (smallSigma1 (acc.getD (t - 2) 0) + acc.getD (t - 7) 0 +
                   smallSigma0 (acc.getD (t - 15) 0) + acc.getD (t - 16) 0)
    schedRounds k (acc ++ [nw])

/-- One SHA-256 compression round. -/
def round256 (st : List Nat) (k w : Nat) : List Nat :=
  match st with
  | [a, b, c, d, e, f, g, h] =>
    let ch := (e &&& f) ^^^ ((4294967295 ^^^ e) &&& g)
    let maj := (a &&& b) ^^^ (a &&& c) ^^^ (b &&& c)
    let t1 := w32 (h + bigSigma1 e + ch + k + w)
    let t2 := w32 (bigSigma0 a + maj)
    [w32 (t1 + t2), a, b, c, w32 (d + t1), e, f, g]
  | other => other

/-- Process one 64-byte block. -/
def processBlock (h : List Nat) (block : List Nat) : List Nat :=
  let w := schedRounds 48 (bytesToWords block)
  let st := (sha256K.zip w).foldl (fun s kw => round256 s kw.1 kw.2) h
  (h.zip st).map (fun p => w32 (p.1 + p.2))

/-- Split a byte list into 64-byte chunks (`fuel` bounds the number of steps;
`chunks64` supplies enough fuel for the whole list). -/
def chunksGo : Nat → List Nat → List (List Nat)
  | 0, _ => []
  | _, [] => []
  | fuel + 1, b :: bs => (b :: bs).take 64 :: chunksGo fuel ((b :: bs).drop 64)

/-- Split a byte list into 64-byte chunks. -/
def chunks64 (bs : List Nat) : List (List Nat) := chunksGo bs.length bs

def hexDigit (n : Nat) : Char := if n < 10 then Char.ofNat (48 + n) else Char.ofNat (87 + n)

def hexWord (n : Nat) : Str := (List.range 8).map (fun i => hexDigit ((n >>> (28 - 4 * i)) % 16))

/-- SHA-256 hex digest of a byte list. -/
def sha256hex (msg : List Nat) : Str :=
  (((chunks64 (sha256pad msg)).foldl processBlock sha256H0).map hexWord).flatten

/-- `bot.text_hash`: `hashlib.sha256(normalize_text(text).encode("utf-8")).hexdigest()`. -/
def text_hash (text : Str) : Str :=
  sha256hex (utf8Bytes (normalize_text text))

example : sha256hex [] = str "e3b0c44298fc1c149afbf4c8996fb92427ae41e4649b934ca495991b7852b855" := by
  decide

example : sha256hex (utf8Bytes (str "abc")) =
    str "ba7816bf8f01cfea414140de5dae2223b00361a396177a9cb410ff61f20015ad" := by
  decide

/-! ### Configuration constants (defaults from `src/bot.py`) -/

def LAUNCHPAD_NAME : Str := str "wenlambo"

def LAUNCHPAD_WEBSITE : Str := str "wenlambo.lol"

def CRYPTO_HASHTAGS : List Str :=
  [str "#crypto", str "#bnb", str "#ethereum", str "#bitcoin", str "#memecoin",
   str "#blockchain", str "#web3", str "#trading", str "#altcoins", str "#defi"]

/-! ### Content finalizer (`src/bot.py`) -/

/-- Python substring test `p in s` (for nonempty `p`; `"" in s` is `True`). -/
def isSubstrOf (p : Str) : Str → Bool
  | [] => p.isEmpty
  | c :: t => p.isPrefixOf (c :: t) || isSubstrOf p t

/-- Fuel-driven scanner for `re.sub(re.escape(w), "", s, flags=re.IGNORECASE)`:
delete case-insensitive occurrences of `w` left to right, resuming after each
match.  `removeAllCI` supplies enough fuel for the whole string. -/
def removeAllGo (w : Str) : Nat → Str → Str
  | 0, s => s
  | _, [] => []
  | fuel + 1, c :: t =>
    if !w.isEmpty && (strLower w).isPrefixOf (strLower (c :: t)) then
      removeAllGo w fuel ((c :: t).drop w.length)
    else c :: removeAllGo w fuel t

/-- `re.sub(re.escape(w), "", s, flags=re.IGNORECASE)`. -/
def removeAllCI (w s : Str) : Str := removeAllGo w s.length s

/-- The em-dash separator `" — "` used when appending the website. -/
def sepDash : Str := str " — "

/-- `bot.ensure_brand_and_site` (the `launchpad_name` parameter is unused in
the source body as well). -/
def ensure_brand_and_site (text : Str) (launchpad_name website : Str) (include_site : Bool) :
    Str :=
  let t := collapseWS (strip text)
  if include_site then
    if !isSubstrOf (strLower website) (strLower t) then
      _trim_to_tweet (t ++ sepDash ++ website) 280
    else t
  else
    strip (collapseWS2 (removeAllCI website t))

/-- The list comprehension in `bot.add_crypto_hashtags`:
`[tag for tag in CRYPTO_HASHTAGS if tag.lower() in text.lower()]`. -/
def hashtags_in_text (text : Str) : List Str :=
  CRYPTO_HASHTAGS.filter (fun tag => isSubstrOf (strLower tag) (strLower text))

/-- Python `" ".join(parts)`. -/
def joinSpace : List Str → Str
  | [] => []
  | [t] => t
  | t :: ts => t ++ ' ' :: joinSpace ts

/-- `bot.add_crypto_hashtags`.  The call `random.sample(CRYPTO_HASHTAGS, needed)`
is modelled by the oracle `sample`: `sample n` stands for the list of `n` tags
drawn without replacement from the pool. -/
def add_crypto_hashtags (sample : Nat → List Str) (text : Str) (min_tags : Nat := 3) : Str :=
  let needed := min_tags - (hashtags_in_text text).length
  if 0 < needed then _trim_to_tweet (text ++ ' ' :: joinSpace (sample needed)) 280
  else text

/-- The double-quote character. -/
def dquote : Char := Char.ofNat 34

/-- The single-quote character. -/
def squote : Char := Char.ofNat 39

/-- The quote-unwrapping guard at the start of `bot.finalize_tweet`. -/
def unwrapQuotes (text : Str) : Str :=
  if (text.head? = some dquote ∧ text.getLast? = some dquote) ∨
     (text.head? = some squote ∧ text.getLast? = some squote) then
    (text.drop 1).dropLast
  else text

/-- `bot.finalize_tweet`. -/
def finalize_tweet (sample : Nat → List Str) (text : Str)
    (launchpad_name website : Str) (include_site : Bool) : Str :=
  _trim_to_tweet
    (add_crypto_hashtags sample
      (clean_spacing
        (ensure_brand_and_site (unwrapQuotes text) launchpad_name website include_site)) 3)
    280

/-- `bot.generate_viral_tweet`.  Each attempt of the retry loop is modelled by
one entry of `attempts`: `none` stands for an attempt whose generation call
raised or returned empty text, `some (t, sample)` for an attempt that produced
the draft `t` together with the tag-sampling outcome used when finalizing it.
The bound `max_attempts = 10` of the source corresponds to the length of the
`attempts` list. -/
def generate_viral_tweet (launchpad_name website : Str) (history_hashes : List Str)
    (include_site : Bool) : List (Option (Str × (Nat → List Str))) → Option Str
  | [] => none
  | none :: rest =>
    generate_viral_tweet launchpad_name website history_hashes include_site rest
  | some (t, sample) :: rest =>
    if t.isEmpty then
      generate_viral_tweet launchpad_name website history_hashes include_site rest
    else
      let text := finalize_tweet sample t launchpad_name website include_site
      if text.isEmpty then
        generate_viral_tweet launchpad_name website history_hashes include_site rest
      else if text_hash text ∈ history_hashes then
        generate_viral_tweet launchpad_name website history_hashes include_site rest
      else if text.length < 40 then
        generate_viral_tweet launchpad_name website history_hashes include_site rest
      else some text

/-! ### Daily website-usage flag (`src/bot.py`) -/

/-- The parsed contents of the website-usage file: the values of the
`"date"` and `"used"` keys (`none` / `false` when a key is absent, matching
`dict.get`). -/
structure SiteUsage where
  date : Option Str
  used : Bool
deriving DecidableEq

/-- `bot._load_site_usage`.  The input models the outcome of reading and
JSON-parsing the usage file: `none` stands for any failure (file absent,
unreadable, or invalid JSON — all swallowed by the bare `except`), and the
result of a failure is the empty dict, modelled as the record with no keys. -/
def _load_site_usage (file : Option SiteUsage) : SiteUsage :=
  file.getD ⟨none, false⟩

/-- `bot.should_include_site_today`:
`usage.get("date") != _today_str() or not usage.get("used", False)`. -/
def should_include_site_today (file : Option SiteUsage) (today : Str) : Bool :=
  decide ((_load_site_usage file).date ≠ some today) || !(_load_site_usage file).used

/-! ### Publishing and the scheduler loop (`src/bot.py`) -/

/-- Outcome of the `requests.post` call inside `bot.post_tweet`: either a
response with a status code and the optional `data.id` field of its JSON body,
or a raised network exception. -/
inductive NetResult where
  | resp (status : Nat) (tweet_id : Option Str)
  | exn
deriving DecidableEq

/-- A Python exception value, as far as the loop in `main` inspects it. -/
structure PyErr where
  is429 : Bool
deriving DecidableEq

/-- `bot.post_tweet`: raises unless the status code is 200 or 201, otherwise
returns the parsed response. -/
def post_tweet (net : NetResult) : Except PyErr (Nat × Option Str) :=
  match net with
  | .exn => .error ⟨false⟩
  | .resp status tweet_id =>
    if status = 200 ∨ status = 201 then .ok (status, tweet_id)
    else .error ⟨status = 429⟩

/-- `interval_seconds = max(60, POST_EVERY_HOURS * 3600)` from `bot.main`. -/
def interval_seconds (post_every_hours : Int) : Int :=
  max 60 (post_every_hours * 3600)

/-- Result of one iteration of the `while True` loop in `bot.main`. -/
structure CycleResult where
  /-- a history record was appended (with this text) -/
  recorded : Option Str
  /-- an exception escaped the loop body -/
  raised : Bool
  /-- seconds slept before the next iteration -/
  slept : Int
deriving DecidableEq

/-- The body of one iteration of the `while True` loop of `bot.main`, up to
and including its outer `except` clause.  `gen` models the outcome of the
generation phase (`.error` = an exception raised inside the `try` before
posting, `.ok none` = `generate_viral_tweet` returned `None`, `.ok (some t)` =
an accepted candidate `t`); `net` models the outcome of the network call
inside `post_tweet`.  Exceptions raised by `post_tweet` or by the missing-id
check are caught by the inner `except`, any other exception by the outer one;
in every case the iteration ends by sleeping `interval` seconds. -/
def run_cycle (interval : Int) (gen : Except PyErr (Option Str)) (net : NetResult) :
    CycleResult :=
  match gen with
  | .error _ => { recorded := none, raised := false, slept := interval }
  | .ok none => { recorded := none, raised := false, slept := interval }
  | .ok (some text) =>
    match post_tweet net with
    | .error _ => { recorded := none, raised := false, slept := interval }
    | .ok (_, tweet_id) =>
      match tweet_id with
      | none => { recorded := none, raised := false, slept := interval }
      | some i =>
        if i.isEmpty then { recorded := none, raised := false, slept := interval }
        else { recorded := some text, raised := false, slept := interval }

/-! ### Token exchange (`src/auth.py`) -/

/-- The fields of the token-endpoint JSON response used by
`auth.exchange_code_for_token`. -/
structure TokenResp where
  access_token : Str
  refresh_token : Option Str
  expires_in : Option Int
deriving DecidableEq

/-- The stored token: the response plus the computed `expires_at`. -/
structure StoredToken where
  access_token : Str
  refresh_token : Option Str
  expires_in : Option Int
  expires_at : Int
deriving DecidableEq

/-- `auth.exchange_code_for_token`, after the HTTP call: `now` is
`int(time.time())`, `status` and `body` model the endpoint response.
A missing `expires_in` is treated as `0` (`token.get('expires_in', 0)`), and
`expires_at = int(time.time()) + int(expires_in) - 60`. -/
def exchange_code_for_token (now : Int) (status : Nat) (body : TokenResp) :
    Except Str StoredToken :=
  if status ≠ 200 then .error (str "Token exchange failed")
  else .ok { access_token := body.access_token, refresh_token := body.refresh_token,
             expires_in := body.expires_in,
             expires_at := now + body.expires_in.getD 0 - 60 }

/-! ### Word-overlap (spec-modelled) -/

/-- Modelled from the spec: the Uniqueness Gate's approximate near-duplicate
test is described as counting how many normalized words a candidate shares
with the union of words of recent ledger previews; `src/bot.py` contains no
such check, so this definition follows the spec's words and is used only to
state claims about that check.  Words are the whitespace-separated pieces of
the normalized text. -/
def words_of (t : Str) : List Str :=
  ((normalize_text t).splitOn ' ').filter (fun w => !w.isEmpty)

/-- Modelled from the spec: the number of distinct normalized words of `cand`
that occur among the words of the given previews. -/
def shared_word_count (cand : Str) (previews : List Str) : Nat :=
  ((words_of cand).dedup.filter (fun w => w ∈ (previews.map words_of).flatten)).length

/-- The `preview` field of a history record:
`normalize_text(text)[:200]` from `bot.append_history_record`. -/
def record_preview (text : Str) : Str := (normalize_text text).take 200

/-! ### Basic length lemmas -/

theorem rstrip_length_le (s : Str) : (rstrip s).length ≤ s.length := by
  have h : (s.reverse.dropWhile isPyWS).length ≤ s.reverse.length :=
    List.IsSuffix.length_le (List.dropWhile_suffix isPyWS)
  simpa [rstrip] using h

theorem lstrip_length_le (s : Str) : (lstrip s).length ≤ s.length :=
  (List.dropWhile_suffix _).length_le

theorem strip_length_le (s : Str) : (strip s).length ≤ s.length :=
  le_trans (rstrip_length_le _) (lstrip_length_le _)

theorem trim_length_le (t : Str) : (_trim_to_tweet t 280).length ≤ 280 := by
  unfold _trim_to_tweet
  by_cases h : (strip t).length ≤ 280
  · simpa [h] using h
  · have h1 : (rstrip ((strip t).take (280 - 1))).length ≤ 280 - 1 :=
      le_trans (rstrip_length_le _) (by simpa using (List.length_take_le (280 - 1) (strip t)))
    simp only [h, if_false]
    simp only [List.length_append, List.length_cons, List.length_nil]
    omega


/-- C1: For every draft text, every configuration, every include-site flag and
every outcome of the random hashtag sampling, the string returned by
`finalize_tweet` has length at most 280. -/
theorem finalize_tweet_length_le (sample : Nat → List Str) (text launchpad_name website : Str)
    (include_site : Bool) :
    (finalize_tweet sample text launchpad_name website include_site).length ≤ 280 :=
  trim_length_le _

theorem run_cycle_never_raises (interval : Int) (gen : Except PyErr (Option Str))
    (net : NetResult) :
    (run_cycle interval gen net).raised = false ∧
    (run_cycle interval gen net).slept = interval := by
  cases gen with
  | error e => simp [run_cycle]
  | ok o =>
    cases o with
    | none => simp [run_cycle]
    | some text =>
      cases hpt : post_tweet net with
      | error e => simp [run_cycle, hpt]
      | ok p =>
        obtain ⟨st, id⟩ := p
        cases id with
        | none => simp [run_cycle, hpt]
        | some i => by_cases hi : i.isEmpty <;> simp [run_cycle, hpt, hi]

/-- C4: The modelled loop body of `main` appends a history record exactly when
the publish succeeded — i.e. when generation produced a candidate and the
`requests.post` call returned status 200 or 201 with a nonempty tweet id — and
in every case (failed publish, missing id, raised exception, generation
exhaustion) no exception escapes the loop body. -/
theorem run_cycle_records_iff_publish_success (interval : Int)
    (gen : Except PyErr (Option Str)) (net : NetResult) :
    ((run_cycle interval gen net).recorded ≠ none ↔
      ((∃ t, gen = .ok (some t)) ∧
       ∃ status i, net = .resp status (some i) ∧ (status = 200 ∨ status = 201) ∧ i ≠ [])) ∧
    (run_cycle interval gen net).raised = false := by
  refine ⟨⟨?_, ?_⟩, (run_cycle_never_raises interval gen net).1⟩
  · intro hrec
    cases gen with
    | error e => simp [run_cycle] at hrec
    | ok o =>
      cases o with
      | none => simp [run_cycle] at hrec
      | some text =>
        cases net with
        | exn => simp [run_cycle, post_tweet] at hrec
        | resp status tweet_id =>
          by_cases hst : status = 200 ∨ status = 201
          · cases tweet_id with
            | none => simp [run_cycle, post_tweet, hst] at hrec
            | some i =>
              by_cases hi : i.isEmpty
              · simp [run_cycle, post_tweet, hst, hi] at hrec
              · exact ⟨⟨text, rfl⟩, status, i, rfl, hst,
                  by simpa [List.isEmpty_iff] using hi⟩
          · simp [run_cycle, post_tweet, hst] at hrec
  · rintro ⟨⟨t, rfl⟩, status, i, rfl, hst, hi⟩
    simp [run_cycle, post_tweet, hst, List.isEmpty_iff, hi]

/-- C5: The scheduler interval `max(60, POST_EVERY_HOURS*3600)` is at least 60
seconds, and every iteration of the modelled loop body of `main` — whatever
the generation and network outcomes, including raised exceptions — ends
without an escaping exception and sleeps exactly that fixed interval. -/
theorem scheduler_cycle_isolated_and_sleeps (post_every_hours : Int)
    (gen : Except PyErr (Option Str)) (net : NetResult) :
    60 ≤ interval_seconds post_every_hours ∧
    (run_cycle (interval_seconds post_every_hours) gen net).raised = false ∧
    (run_cycle (interval_seconds post_every_hours) gen net).slept =
      interval_seconds post_every_hours :=
  ⟨le_max_left _ _, run_cycle_never_raises _ gen net⟩

/-- C9: On a successful token exchange (status 200), the stored credential's
`expires_at` is exactly `int(now) + int(expires_in) - 60`, with a missing
`expires_in` treated as `0` (hence `now - 60`). -/
theorem exchange_code_for_token_expires_at (now : Int) (body : TokenResp) (tok : StoredToken)
    (h : exchange_code_for_token now 200 body = .ok tok) :
    tok.expires_at = now + body.expires_in.getD 0 - 60 ∧
    (body.expires_in = none → tok.expires_at = now - 60) := by
  have h1 : tok =
      ⟨body.access_token, body.refresh_token, body.expires_in,
        now + body.expires_in.getD 0 - 60⟩ := by
    simpa [exchange_code_for_token] using h.symm
  subst h1
  refine ⟨rfl, ?_⟩
  intro hnone
  simp [hnone]

theorem exchange_code_for_token_expires_at_witness :
    ∃ tok, exchange_code_for_token 1000000 200 ⟨str "tok", some (str "ref"), some 7200⟩ = .ok tok ∧
      tok.expires_at = 1000000 + 7200 - 60 := by
  refine ⟨_, rfl, ?_⟩
  exact (exchange_code_for_token_expires_at 1000000 ⟨str "tok", some (str "ref"), some 7200⟩ _
    rfl).1

/-- C10: If reading or parsing the website-usage file fails (file absent,
unreadable, or invalid JSON), `_load_site_usage` returns the empty dict and
`should_include_site_today` returns `True` for every current date — the daily
promotional-link flag fails open. -/
theorem site_flag_fails_open (today : Str) :
    _load_site_usage none = ⟨none, false⟩ ∧
    should_include_site_today none today = true := by
  constructor
  · rfl
  · simp [should_include_site_today, _load_site_usage]

/-! ### The Uniqueness Gate (C2, C3) -/

/-- A concrete sampling outcome (the first `n` pool tags), used to instantiate
the sampling oracle at concrete inputs. -/
def sampleHead (n : Nat) : List Str := CRYPTO_HASHTAGS.take n

theorem generate_not_in_history (name website : Str) (hist : List Str) (inc : Bool) :
    ∀ (atts : List (Option (Str × (Nat → List Str)))) (ft : Str),
      generate_viral_tweet name website hist inc atts = some ft → text_hash ft ∉ hist := by
  intro atts
  induction atts with
  | nil =>
    intro ft h
    simp [generate_viral_tweet] at h
  | cons a rest ih =>
    intro ft h
    rcases a with _ | ⟨t, sample⟩
    · exact ih ft (by simpa [generate_viral_tweet] using h)
    · rw [generate_viral_tweet] at h
      dsimp only at h
      split at h
      · exact ih ft h
      · split at h
        · exact ih ft h
        · split at h
          · exact ih ft h
          · split at h
            · exact ih ft h
            · rename_i hmem _
              have hft := Option.some.inj h
              subst hft
              exact hmem

theorem generate_accepts_of_checks (name website : Str) (hist : List Str) (inc : Bool)
    (t : Str) (sample : Nat → List Str) (rest : List (Option (Str × (Nat → List Str))))
    (ht : t.isEmpty = false)
    (hhash : text_hash (finalize_tweet sample t name website inc) ∉ hist)
    (hlen : 40 ≤ (finalize_tweet sample t name website inc).length) :
    generate_viral_tweet name website hist inc (some (t, sample) :: rest) =
      some (finalize_tweet sample t name website inc) := by
  have hne : (finalize_tweet sample t name website inc).isEmpty = false := by
    rcases h : finalize_tweet sample t name website inc with _ | ⟨c, cs⟩
    · rw [h] at hlen
      simp at hlen
    · rfl
  have h40 : ¬ (finalize_tweet sample t name website inc).length < 40 := by omega
  rw [generate_viral_tweet]
  simp [ht, hne, hhash, h40]

/-- C2 (amended): `generate_viral_tweet` never returns a text whose
fingerprint (`text_hash` of the normalized text) is already in the history
set; and against an empty history set it never rejects a candidate whose
fingerprint and word-overlap are both below threshold **and whose finalized
length is at least the 40-character sanity floor** (the floor, present in the
source, is the part missing from the claim). -/
theorem generate_viral_tweet_uniqueness_gate (name website : Str) (inc : Bool)
    (hist : List Str) (atts rest : List (Option (Str × (Nat → List Str))))
    (ft t : Str) (sample : Nat → List Str) :
    (generate_viral_tweet name website hist inc atts = some ft → text_hash ft ∉ hist) ∧
    (t.isEmpty = false → 40 ≤ (finalize_tweet sample t name website inc).length →
      generate_viral_tweet name website [] inc (some (t, sample) :: rest) =
        some (finalize_tweet sample t name website inc)) := by
  constructor
  · exact generate_not_in_history name website hist inc atts ft
  · intro ht hlen
    exact generate_accepts_of_checks name website [] inc t sample rest ht
      (List.not_mem_nil _) hlen

theorem generate_viral_tweet_uniqueness_gate_witness :
    generate_viral_tweet LAUNCHPAD_NAME LAUNCHPAD_WEBSITE [] false
        [some (str "wenlambo degens stack gains every cycle", sampleHead)] =
      some (finalize_tweet sampleHead (str "wenlambo degens stack gains every cycle")
        LAUNCHPAD_NAME LAUNCHPAD_WEBSITE false) :=
  (generate_viral_tweet_uniqueness_gate LAUNCHPAD_NAME LAUNCHPAD_WEBSITE false [] [] []
    [] (str "wenlambo degens stack gains every cycle") sampleHead).2 (by decide) (by decide)

/-- C2 (counterexample): against an empty history set, a candidate whose
fingerprint is trivially absent and whose word-overlap with the (empty) recent
previews is zero is still rejected, because its finalized length is below the
40-character floor: the whole attempt list is exhausted and `None` is
returned. -/
theorem generate_rejects_short_fresh_candidate :
    generate_viral_tweet LAUNCHPAD_NAME LAUNCHPAD_WEBSITE [] false
        [some (str "hi", sampleHead)] = none ∧
    (finalize_tweet sampleHead (str "hi") LAUNCHPAD_NAME LAUNCHPAD_WEBSITE false).length < 40 ∧
    shared_word_count (finalize_tweet sampleHead (str "hi")
      LAUNCHPAD_NAME LAUNCHPAD_WEBSITE false) [] = 0 := by
  refine ⟨?_, ?_, ?_⟩ <;> decide

/-- C3 (amended): the Uniqueness Gate of `generate_viral_tweet` performs no
word-overlap comparison at all: a candidate is accepted and returned as soon
as its raw draft is nonempty, its finalized text is nonempty, its fingerprint
is not in the history set and its length is at least 40 — however many
normalized words it shares with the previews of earlier records. -/
theorem generate_viral_tweet_ignores_word_overlap (name website : Str) (inc : Bool)
    (hist : List Str) (t : Str) (sample : Nat → List Str)
    (rest : List (Option (Str × (Nat → List Str)))) (previews : List Str) (k : Nat)
    (hoverlap : k ≤ shared_word_count (finalize_tweet sample t name website inc) previews)
    (ht : t.isEmpty = false)
    (hhash : text_hash (finalize_tweet sample t name website inc) ∉ hist)
    (hlen : 40 ≤ (finalize_tweet sample t name website inc).length) :
    generate_viral_tweet name website hist inc (some (t, sample) :: rest) =
      some (finalize_tweet sample t name website inc) :=
  generate_accepts_of_checks name website hist inc t sample rest ht hhash hlen

/-- The text of an already-posted tweet, used as the history entry of the
near-duplicate scenario. -/
def postedTweet : Str :=
  str "crypto degens love wenlambo staking rewards every single day #crypto #bnb #ethereum"

/-- A fresh draft that differs from `postedTweet` by a single word. -/
def nearDupDraft : Str :=
  str "crypto degens love wenlambo staking rewards every single night"

/-- C3 (counterexample): with a ledger holding the record of `postedTweet`,
the candidate finalized from `nearDupDraft` shares 11 ≥ 3 normalized words
with that record's preview, yet `generate_viral_tweet` returns it instead of
requesting a new draft — the claimed near-duplicate rejection does not exist
in the code. -/
theorem generate_viral_tweet_returns_near_duplicate :
    generate_viral_tweet LAUNCHPAD_NAME LAUNCHPAD_WEBSITE [text_hash postedTweet] false
        [some (nearDupDraft, sampleHead)] =
      some (finalize_tweet sampleHead nearDupDraft LAUNCHPAD_NAME LAUNCHPAD_WEBSITE false) ∧
    3 ≤ shared_word_count
        (finalize_tweet sampleHead nearDupDraft LAUNCHPAD_NAME LAUNCHPAD_WEBSITE false)
        [record_preview postedTweet] := by
  constructor <;> decide

theorem generate_viral_tweet_ignores_word_overlap_witness :
    generate_viral_tweet LAUNCHPAD_NAME LAUNCHPAD_WEBSITE [text_hash postedTweet] false
        [some (nearDupDraft, sampleHead)] =
      some (finalize_tweet sampleHead nearDupDraft LAUNCHPAD_NAME LAUNCHPAD_WEBSITE false) :=
  generate_viral_tweet_ignores_word_overlap LAUNCHPAD_NAME LAUNCHPAD_WEBSITE false
    [text_hash postedTweet] nearDupDraft sampleHead [] [record_preview postedTweet] 3
    (by decide) (by decide) (by decide) (by decide)

/-! ### Character and substring infrastructure -/

theorem char_ofNat_toNat {n : Nat} (h : n < 55296) : (Char.ofNat n).toNat = n := by
  have hv : n.isValidChar := Or.inl h
  simp only [Char.ofNat, dif_pos hv, Char.ofNatAux, Char.toNat, UInt32.toNat,
    BitVec.toNat_ofNatLt]

theorem char_eq_of_toNat {c d : Char} (h : c.toNat = d.toNat) : c = d := by
  apply Char.eq_of_val_eq
  exact congrArg UInt32.mk (BitVec.eq_of_toNat_eq h)

theorem char_toNat_lt (c : Char) : c.toNat < 1114112 := by
  rcases c.valid with h | h
  · exact lt_trans h (by norm_num)
  · exact h.2

theorem pyLower_toNat_of_upper {c : Char} (h1 : 65 ≤ c.toNat) (h2 : c.toNat ≤ 90) :
    (pyLower c).toNat = c.toNat + 32 := by
  rw [pyLower, if_pos ⟨h1, h2⟩]
  exact char_ofNat_toNat (by omega)

theorem pyLower_eq_self_of_not_upper {c : Char} (h : ¬(65 ≤ c.toNat ∧ c.toNat ≤ 90)) :
    pyLower c = c := by
  rw [pyLower, if_neg h]

theorem isPyWS_iff_toNat {c : Char} :
    isPyWS c = true ↔
      c.toNat = 32 ∨ c.toNat = 9 ∨ c.toNat = 10 ∨ c.toNat = 13 ∨ c.toNat = 11 ∨
      c.toNat = 12 := by
  constructor
  · intro h
    simp only [isPyWS, Bool.or_eq_true, decide_eq_true_eq] at h
    rcases h with ((((h | h) | h) | h) | h) | h <;> subst h <;> decide
  · intro h
    have hc : c = ' ' ∨ c = '\t' ∨ c = '\n' ∨ c = '\x0d' ∨ c = '\x0b' ∨ c = '\x0c' := by
      rcases h with h | h | h | h | h | h
      · exact Or.inl (char_eq_of_toNat (by rw [h]; decide))
      · exact Or.inr (Or.inl (char_eq_of_toNat (by rw [h]; decide)))
      · exact Or.inr (Or.inr (Or.inl (char_eq_of_toNat (by rw [h]; decide))))
      · exact Or.inr (Or.inr (Or.inr (Or.inl (char_eq_of_toNat (by rw [h]; decide)))))
      · exact Or.inr (Or.inr (Or.inr (Or.inr (Or.inl (char_eq_of_toNat (by rw [h]; decide))))))
      · exact Or.inr (Or.inr (Or.inr (Or.inr (Or.inr (char_eq_of_toNat (by rw [h]; decide))))))
    rcases hc with h | h | h | h | h | h <;> subst h <;> decide

theorem isPunct_iff_toNat {c : Char} :
    isPunct c = true ↔ c.toNat = 63 ∨ c.toNat = 46 ∨ c.toNat = 33 ∨ c.toNat = 44 := by
  constructor
  · intro h
    simp only [isPunct, Bool.or_eq_true, decide_eq_true_eq] at h
    rcases h with ((h | h) | h) | h <;> subst h <;> decide
  · intro h
    have hc : c = '?' ∨ c = '.' ∨ c = '!' ∨ c = ',' := by
      rcases h with h | h | h | h
      · exact Or.inl (char_eq_of_toNat (by rw [h]; decide))
      · exact Or.inr (Or.inl (char_eq_of_toNat (by rw [h]; decide)))
      · exact Or.inr (Or.inr (Or.inl (char_eq_of_toNat (by rw [h]; decide))))
      · exact Or.inr (Or.inr (Or.inr (char_eq_of_toNat (by rw [h]; decide))))
    rcases hc with h | h | h | h <;> subst h <;> decide

theorem isPyWS_pyLower (c : Char) : isPyWS (pyLower c) = isPyWS c := by
  by_cases h : 65 ≤ c.toNat ∧ c.toNat ≤ 90
  · have ht := pyLower_toNat_of_upper h.1 h.2
    have hl : isPyWS (pyLower c) = false := by
      rw [Bool.eq_false_iff]
      intro hws
      have := isPyWS_iff_toNat.mp hws
      omega
    have hr : isPyWS c = false := by
      rw [Bool.eq_false_iff]
      intro hws
      have := isPyWS_iff_toNat.mp hws
      omega
    rw [hl, hr]
  · rw [pyLower_eq_self_of_not_upper h]

theorem isPunct_pyLower (c : Char) : isPunct (pyLower c) = isPunct c := by
  by_cases h : 65 ≤ c.toNat ∧ c.toNat ≤ 90
  · have ht := pyLower_toNat_of_upper h.1 h.2
    have hl : isPunct (pyLower c) = false := by
      rw [Bool.eq_false_iff]
      intro hp
      have := isPunct_iff_toNat.mp hp
      omega
    have hr : isPunct c = false := by
      rw [Bool.eq_false_iff]
      intro hp
      have := isPunct_iff_toNat.mp hp
      omega
    rw [hl, hr]
  · rw [pyLower_eq_self_of_not_upper h]

theorem isSubstrOf_iff {p s : Str} : isSubstrOf p s = true ↔ p <:+: s := by
  induction s with
  | nil =>
    simp only [isSubstrOf, List.isEmpty_iff]
    constructor
    · intro h
      subst h
      exact List.infix_rfl
    · intro h
      exact List.eq_nil_of_infix_nil h
  | cons c t ih =>
    simp only [isSubstrOf, Bool.or_eq_true, List.isPrefixOf_iff_prefix, ih]
    rw [List.infix_cons_iff]

theorem strLower_append (a b : Str) : strLower (a ++ b) = strLower a ++ strLower b :=
  List.map_append pyLower a b

theorem isPyWS_comp_pyLower : isPyWS ∘ pyLower = isPyWS :=
  funext isPyWS_pyLower

theorem lstrip_strLower (s : Str) : lstrip (strLower s) = strLower (lstrip s) := by
  simp only [lstrip, strLower, List.dropWhile_map, isPyWS_comp_pyLower]

theorem rstrip_strLower (s : Str) : rstrip (strLower s) = strLower (rstrip s) := by
  simp only [rstrip, strLower, ← List.map_reverse, List.dropWhile_map, isPyWS_comp_pyLower]

theorem strip_strLower (s : Str) : strip (strLower s) = strLower (strip s) := by
  rw [strip, lstrip_strLower, rstrip_strLower, strip]

theorem infix_lstrip_of_nonws {p s : Str} (hne : p ≠ [])
    (hws : ∀ c ∈ p, isPyWS c = false) (h : p <:+: s) : p <:+: lstrip s := by
  induction s with
  | nil => exact absurd (List.eq_nil_of_infix_nil h) hne
  | cons c t ih =>
    rw [lstrip, List.dropWhile_cons]
    by_cases hc : isPyWS c
    · rw [if_pos hc]
      rcases List.infix_cons_iff.mp h with hp | hi
      · rcases p with _ | ⟨a, p'⟩
        · exact absurd rfl hne
        · have ha := (List.cons_prefix_cons.mp hp).1
          subst ha
          rw [hws a (List.mem_cons_self a p')] at hc
          exact absurd hc (by simp)
      · exact ih hi
    · rw [if_neg hc]
      exact h

theorem infix_rstrip_of_nonws {p s : Str} (hne : p ≠ [])
    (hws : ∀ c ∈ p, isPyWS c = false) (h : p <:+: s) : p <:+: rstrip s := by
  have h1 : p.reverse <:+: s.reverse := List.reverse_infix.mpr h
  have h2 : p.reverse <:+: lstrip s.reverse := by
    apply infix_lstrip_of_nonws (by simpa using hne) _ h1
    intro c hc
    exact hws c (List.mem_reverse.mp hc)
  rw [rstrip]
  have h3 := List.reverse_infix.mpr h2
  simpa [lstrip] using h3

theorem infix_strip_of_nonws {p s : Str} (hne : p ≠ [])
    (hws : ∀ c ∈ p, isPyWS c = false) (h : p <:+: s) : p <:+: strip s :=
  infix_rstrip_of_nonws hne hws (infix_lstrip_of_nonws hne hws h)

theorem trim_eq_strip {t : Str} (h : (strip t).length ≤ 280) :
    _trim_to_tweet t 280 = strip t := by
  simp [_trim_to_tweet, h]

theorem joinSpace_cons_cons (t u : Str) (us : List Str) :
    joinSpace (t :: u :: us) = t ++ ' ' :: joinSpace (u :: us) := rfl

theorem mem_infix_joinSpace {x : Str} {l : List Str} (h : x ∈ l) : x <:+: joinSpace l := by
  induction l with
  | nil => cases h
  | cons t ts ih =>
    rcases List.mem_cons.mp h with rfl | hmem
    · cases ts with
      | nil => exact List.infix_rfl
      | cons u us =>
        rw [joinSpace_cons_cons]
        exact List.IsPrefix.isInfix (List.prefix_append ..)
    · cases ts with
      | nil => cases hmem
      | cons u us =>
        rw [joinSpace_cons_cons]
        refine (ih hmem).trans (List.IsSuffix.isInfix ?_)
        have he : t ++ ' ' :: joinSpace (u :: us) = (t ++ [' ']) ++ joinSpace (u :: us) := by
          simp
        rw [he]
        exact List.suffix_append ..

theorem length_filter_mono {α : Type} {l : List α} {p q : α → Bool}
    (h : ∀ a ∈ l, p a = true → q a = true) :
    (l.filter p).length ≤ (l.filter q).length := by
  induction l with
  | nil => simp
  | cons a t ih =>
    have ih' := ih (fun b hb => h b (List.mem_cons_of_mem a hb))
    by_cases hp : p a = true
    · rw [List.filter_cons_of_pos hp, List.filter_cons_of_pos (h a (List.mem_cons_self a t) hp)]
      simpa using ih'
    · rw [List.filter_cons_of_neg (by simpa using hp)]
      by_cases hq : q a = true
      · rw [List.filter_cons_of_pos hq]
        simp only [List.length_cons]
        omega
      · rw [List.filter_cons_of_neg (by simpa using hq)]
        exact ih'

/-! ### Hashtag quota (C6) -/

/-- The text reaching `add_crypto_hashtags` inside `finalize_tweet`. -/
def finalize_pre (text launchpad_name website : Str) (include_site : Bool) : Str :=
  clean_spacing (ensure_brand_and_site (unwrapQuotes text) launchpad_name website include_site)

theorem finalize_tweet_eq (sample : Nat → List Str) (text launchpad_name website : Str)
    (include_site : Bool) :
    finalize_tweet sample text launchpad_name website include_site =
      _trim_to_tweet (add_crypto_hashtags sample
        (finalize_pre text launchpad_name website include_site) 3) 280 := rfl

theorem pool_tags_good :
    ∀ tag ∈ CRYPTO_HASHTAGS, strLower tag ≠ [] ∧ ∀ c ∈ strLower tag, isPyWS c = false := by
  decide

theorem pool_nodup : CRYPTO_HASHTAGS.Nodup := by decide

theorem substr_trim_of_substr {p t : Str} (hne : p ≠ []) (hws : ∀ c ∈ p, isPyWS c = false)
    (h : p <:+: strLower t) (hlen : (strip t).length ≤ 280) :
    p <:+: strLower (_trim_to_tweet t 280) := by
  rw [trim_eq_strip hlen, ← strip_strLower]
  exact infix_strip_of_nonws hne hws h

theorem add_crypto_hashtags_of_pos {sample : Nat → List Str} {t : Str} {needed : Nat}
    (hneed : needed = 3 - (hashtags_in_text t).length) (hpos : 0 < needed) :
    add_crypto_hashtags sample t 3 =
      _trim_to_tweet (t ++ ' ' :: joinSpace (sample needed)) 280 := by
  subst hneed
  rw [add_crypto_hashtags]
  simp only [if_pos hpos]

theorem add_crypto_hashtags_of_zero {sample : Nat → List Str} {t : Str}
    (h : ¬ 0 < 3 - (hashtags_in_text t).length) :
    add_crypto_hashtags sample t 3 = t := by
  rw [add_crypto_hashtags]
  simp only [if_neg h]

/-- C6 (amended): `add_crypto_hashtags` counts the pool tags already present
case-insensitively and appends a sample of the remaining quota, but the claim
as stated fails: the appended tags can be cut off again by the 280-character
trim, and a sampled tag may coincide with one already present.  Whenever
neither happens — the tagged text fits in 280 characters and the sampled tags
are distinct, drawn from the pool, and none already occurs in the text — the
output of `finalize_tweet` does contain at least `min_tags = 3` pool hashtags. -/
theorem finalize_tweet_tag_quota (sample : Nat → List Str)
    (text launchpad_name website : Str) (include_site : Bool) (pre : Str) (needed : Nat)
    (hpre : pre = finalize_pre text launchpad_name website include_site)
    (hneed : needed = 3 - (hashtags_in_text pre).length)
    (hsub : ∀ x ∈ sample needed, x ∈ CRYPTO_HASHTAGS)
    (hcount : (sample needed).length = needed)
    (hnodup : (sample needed).Nodup)
    (hfresh : ∀ x ∈ sample needed, isSubstrOf (strLower x) (strLower pre) = false)
    (hfits : (if 0 < needed then pre ++ ' ' :: joinSpace (sample needed) else pre).length ≤ 280) :
    3 ≤ (hashtags_in_text
      (finalize_tweet sample text launchpad_name website include_site)).length := by
  by_cases hpos : 0 < needed
  · -- the sampled tags are appended and survive both trims
    rw [if_pos hpos] at hfits
    have hadd : add_crypto_hashtags sample pre 3 =
        _trim_to_tweet (pre ++ ' ' :: joinSpace (sample needed)) 280 :=
      add_crypto_hashtags_of_pos hneed hpos
    have htag1 : (strip (pre ++ ' ' :: joinSpace (sample needed))).length ≤ 280 :=
      le_trans (strip_length_le _) hfits
    have hout : finalize_tweet sample text launchpad_name website include_site =
        _trim_to_tweet (strip (pre ++ ' ' :: joinSpace (sample needed))) 280 := by
      rw [finalize_tweet_eq, ← hpre, hadd, trim_eq_strip htag1]
    have htag2 : (strip (strip (pre ++ ' ' :: joinSpace (sample needed)))).length ≤ 280 :=
      le_trans (strip_length_le _) htag1
    -- every already-present tag and every sampled tag occurs in the output
    have hQ : ∀ tag ∈ CRYPTO_HASHTAGS,
        (isSubstrOf (strLower tag) (strLower pre) = true ∨ tag ∈ sample needed) →
        isSubstrOf (strLower tag)
          (strLower (finalize_tweet sample text launchpad_name website include_site)) =
          true := by
      intro tag htag hcase
      obtain ⟨hne, hws⟩ := pool_tags_good tag htag
      have hinfix : strLower tag <:+: strLower (pre ++ ' ' :: joinSpace (sample needed)) := by
        rcases hcase with hin | hmem
        · have h1 : strLower tag <:+: strLower pre := isSubstrOf_iff.mp hin
          rw [strLower_append]
          exact h1.trans (List.IsPrefix.isInfix (List.prefix_append ..))
        · have h1 : tag <:+: joinSpace (sample needed) := mem_infix_joinSpace hmem
          have h2 : joinSpace (sample needed) <:+: pre ++ ' ' :: joinSpace (sample needed) := by
            refine List.IsSuffix.isInfix ?_
            have he : pre ++ ' ' :: joinSpace (sample needed) =
                (pre ++ [' ']) ++ joinSpace (sample needed) := by simp
            rw [he]
            exact List.suffix_append ..
          exact List.IsInfix.map pyLower (h1.trans h2)
      rw [hout]
      apply isSubstrOf_iff.mpr
      apply substr_trim_of_substr hne hws _ htag2
      rw [← strip_strLower]
      exact infix_strip_of_nonws hne hws hinfix
    -- counting: present tags plus sampled tags are distinct members of the pool
    have hP : ∀ x ∈ CRYPTO_HASHTAGS.filter
        (fun tag => isSubstrOf (strLower tag) (strLower pre)), x ∈ CRYPTO_HASHTAGS ∧
        isSubstrOf (strLower x) (strLower pre) = true := by
      intro x hx
      have h1 := List.mem_filter.mp hx
      exact ⟨h1.1, h1.2⟩
    have hLsub : ∀ x ∈ (CRYPTO_HASHTAGS.filter
        (fun tag => isSubstrOf (strLower tag) (strLower pre))) ++ sample needed,
        x ∈ CRYPTO_HASHTAGS.filter (fun tag => isSubstrOf (strLower tag)
          (strLower (finalize_tweet sample text launchpad_name website include_site))) := by
      intro x hx
      rcases List.mem_append.mp hx with hx1 | hx2
      · obtain ⟨hmem, hsubp⟩ := hP x hx1
        exact List.mem_filter_of_mem hmem (hQ x hmem (Or.inl hsubp))
      · exact List.mem_filter_of_mem (hsub x hx2) (hQ x (hsub x hx2) (Or.inr hx2))
    have hLnodup : ((CRYPTO_HASHTAGS.filter
        (fun tag => isSubstrOf (strLower tag) (strLower pre))) ++ sample needed).Nodup := by
      refine List.Nodup.append (pool_nodup.filter _) hnodup ?_
      intro x hx1 hx2
      have h2 := hfresh x hx2
      rw [(hP x hx1).2] at h2
      simp at h2
    have hlen3 : ((CRYPTO_HASHTAGS.filter
        (fun tag => isSubstrOf (strLower tag) (strLower pre))) ++ sample needed).length = 3 := by
      rw [List.length_append, hcount, hneed]
      have hlt : (hashtags_in_text pre).length < 3 := by
        by_contra hge
        rw [hneed] at hpos
        omega
      have : (CRYPTO_HASHTAGS.filter
          (fun tag => isSubstrOf (strLower tag) (strLower pre))).length =
          (hashtags_in_text pre).length := rfl
      omega
    calc 3 = ((CRYPTO_HASHTAGS.filter
            (fun tag => isSubstrOf (strLower tag) (strLower pre))) ++ sample needed).length :=
          hlen3.symm
      _ ≤ _ := List.Subperm.length_le (List.Nodup.subperm hLnodup hLsub)
  · -- no tags are appended: at least three are already present and survive the trim
    rw [if_neg hpos] at hfits
    rw [hneed] at hpos
    have hge : 3 ≤ (hashtags_in_text pre).length := by omega
    have hadd : add_crypto_hashtags sample pre 3 = pre := add_crypto_hashtags_of_zero hpos
    have hpre280 : (strip pre).length ≤ 280 := le_trans (strip_length_le _) hfits
    have hout : finalize_tweet sample text launchpad_name website include_site =
        _trim_to_tweet pre 280 := by
      rw [finalize_tweet_eq, ← hpre, hadd]
    refine le_trans hge ?_
    rw [hout]
    apply length_filter_mono
    intro tag htag hp
    obtain ⟨hne, hws⟩ := pool_tags_good tag htag
    apply isSubstrOf_iff.mpr
    exact substr_trim_of_substr hne hws (isSubstrOf_iff.mp hp) hpre280

theorem finalize_tweet_tag_quota_witness :
    3 ≤ (hashtags_in_text (finalize_tweet sampleHead (str "gm frens wen moon")
      LAUNCHPAD_NAME LAUNCHPAD_WEBSITE false)).length := by
  refine finalize_tweet_tag_quota sampleHead (str "gm frens wen moon")
    LAUNCHPAD_NAME LAUNCHPAD_WEBSITE false
    (finalize_pre (str "gm frens wen moon") LAUNCHPAD_NAME LAUNCHPAD_WEBSITE false) 3
    rfl (by decide) (by decide) (by decide) (by decide) (by decide) (by decide)

/-- C6 (counterexample): a 300-character draft with no pool hashtag finalizes
to a 280-character string containing no pool hashtag at all: the three
appended tags are removed again by the trim inside `add_crypto_hashtags`. -/
theorem finalize_tweet_can_drop_all_hashtags :
    (hashtags_in_text (finalize_tweet sampleHead (List.replicate 300 'a')
      LAUNCHPAD_NAME LAUNCHPAD_WEBSITE false)).length = 0 := by
  decide

/-! ### C7: the finalized tweet never contains the website domain -/

/-- The key invariant established by `clean_spacing`: whenever a full stop is
immediately followed by a non-whitespace character, the character immediately
preceding the full stop (if any) is the single space that `spaceAfterPunct`
inserted — so no letter can touch a dot on both sides, and in particular the
pattern `o.l` inside `wenlambo.lol` cannot survive. -/
def GoodDots (s : Str) : Prop :=
  ∀ a b : Char, [a, '.', b] <:+: s → isPyWS b = false → a = ' '

theorem GoodDots_mono {s' s : Str} (h : s' <:+: s) (hg : GoodDots s) : GoodDots s' :=
  fun a b htrip hb => hg a b (htrip.trans h) hb

theorem lstrip_infix_self (s : Str) : lstrip s <:+: s :=
  List.IsSuffix.isInfix (List.dropWhile_suffix _)

theorem rstrip_prefix_self (s : Str) : rstrip s <+: s := by
  rw [rstrip, ← List.reverse_suffix, List.reverse_reverse]
  exact List.dropWhile_suffix _

theorem strip_infix_self (s : Str) : strip s <:+: s :=
  List.IsInfix.trans (List.IsPrefix.isInfix (rstrip_prefix_self (lstrip s)))
    (lstrip_infix_self s)

theorem head_sap (c : Char) (cs : Str) : ∃ t, spaceAfterPunct (c :: cs) = c :: t := by
  cases cs with
  | nil => exact ⟨[], rfl⟩
  | cons d cs' =>
    by_cases h : (isPunct c && !isPyWS d) = true
    · exact ⟨_, by rw [spaceAfterPunct, if_pos h]⟩
    · exact ⟨_, by rw [spaceAfterPunct, if_neg h]⟩

theorem sap_punct_second (p : Char) (hp : isPunct p = true) (rest : Str) :
    spaceAfterPunct (p :: rest) = [p] ∨
    ∃ z zs, spaceAfterPunct (p :: rest) = p :: z :: zs ∧ isPyWS z = true := by
  cases rest with
  | nil => exact Or.inl rfl
  | cons r rest' =>
    by_cases hr : isPyWS r = true
    · have hcond : ¬ (isPunct p && !isPyWS r) = true := by simp [hr]
      obtain ⟨t, ht⟩ := head_sap r rest'
      refine Or.inr ⟨r, t, ?_, hr⟩
      rw [spaceAfterPunct, if_neg hcond, ht]
    · have hr' : isPyWS r = false := Bool.eq_false_iff.mpr hr
      have hcond : (isPunct p && !isPyWS r) = true := by simp [hp, hr']
      refine Or.inr ⟨' ', r :: spaceAfterPunct rest', ?_, by decide⟩
      rw [spaceAfterPunct, if_pos hcond]

/-- A dot followed by a non-whitespace character never starts the output of
`spaceAfterPunct`. -/
theorem pair_dot_not_prefix_sap {b : Char} {u : Str} (hb : isPyWS b = false)
    (h : ['.', b] <+: spaceAfterPunct u) : False := by
  cases u with
  | nil =>
    have : spaceAfterPunct [] = ([] : Str) := rfl
    rw [this, List.prefix_nil] at h
    simp at h
  | cons e cs' =>
    have he : e = '.' := by
      obtain ⟨t, ht⟩ := head_sap e cs'
      rw [ht] at h
      exact ((List.cons_prefix_cons.mp h).1).symm
    subst he
    rcases sap_punct_second '.' (by decide) cs' with hone | ⟨z, zs, hz, hwz⟩
    · rw [hone] at h
      have h2 := (List.cons_prefix_cons.mp h).2
      rw [List.prefix_nil] at h2
      simp at h2
    · rw [hz] at h
      have h2 := (List.cons_prefix_cons.mp h).2
      have hbz := (List.cons_prefix_cons.mp h2).1
      rw [hbz, hwz] at hb
      simp at hb

theorem good_sap (s : Str) : GoodDots (spaceAfterPunct s) := by
  induction s using spaceAfterPunct.induct with
  | case1 =>
    intro a b htrip hb
    have h0 : spaceAfterPunct [] = ([] : Str) := rfl
    rw [h0] at htrip
    have := List.eq_nil_of_infix_nil htrip
    simp at this
  | case2 c =>
    intro a b htrip hb
    have h0 : spaceAfterPunct [c] = [c] := rfl
    rw [h0] at htrip
    have := List.IsInfix.length_le htrip
    simp at this
  | case3 c d cs h ih =>
    intro a b htrip hb
    rw [spaceAfterPunct, if_pos h] at htrip
    rcases List.infix_cons_iff.mp htrip with hp | h1
    · obtain ⟨hac, hp2⟩ := List.cons_prefix_cons.mp hp
      obtain ⟨hdot, _⟩ := List.cons_prefix_cons.mp hp2
      exact absurd hdot (by decide)
    · rcases List.infix_cons_iff.mp h1 with hp | h2
      · exact (List.cons_prefix_cons.mp hp).1
      · rcases List.infix_cons_iff.mp h2 with hp | h3
        · exact ((pair_dot_not_prefix_sap hb (List.cons_prefix_cons.mp hp).2)).elim
        · exact ih a b h3 hb
  | case4 c d cs h ih =>
    intro a b htrip hb
    rw [spaceAfterPunct, if_neg h] at htrip
    rcases List.infix_cons_iff.mp htrip with hp | h1
    · exact ((pair_dot_not_prefix_sap hb (List.cons_prefix_cons.mp hp).2)).elim
    · exact ih a b h1 hb

theorem good_collapseGo (bb : Bool) (s : Str) (hg : GoodDots s) :
    GoodDots (collapseGo bb s) := by
  induction bb, s using collapseGo.induct with
  | case1 b =>
    intro a b' htrip hb
    have h0 : collapseGo b [] = ([] : Str) := rfl
    rw [h0] at htrip
    have := List.eq_nil_of_infix_nil htrip
    simp at this
  | case2 c cs h ih =>
    have he : collapseGo true (c :: cs) = collapseGo true cs := by
      rw [collapseGo, if_pos h, if_pos rfl]
    rw [he]
    exact ih (GoodDots_mono (List.IsSuffix.isInfix (List.suffix_cons c cs)) hg)
  | case3 inRun c cs h1 h2 ih =>
    have he : collapseGo inRun (c :: cs) = ' ' :: collapseGo true cs := by
      rw [collapseGo, if_pos h1, if_neg h2]
    rw [he]
    intro a b htrip hb
    have hgood := ih (GoodDots_mono (List.IsSuffix.isInfix (List.suffix_cons c cs)) hg)
    rcases List.infix_cons_iff.mp htrip with hp | h3
    · exact (List.cons_prefix_cons.mp hp).1
    · exact hgood a b h3 hb
  | case4 inRun c cs h ih =>
    have he : collapseGo inRun (c :: cs) = c :: collapseGo false cs := by
      rw [collapseGo, if_neg h]
    rw [he]
    intro a b htrip hb
    have hgood := ih (GoodDots_mono (List.IsSuffix.isInfix (List.suffix_cons c cs)) hg)
    rcases List.infix_cons_iff.mp htrip with hp | h3
    · -- the dot and its successor come unchanged from `cs` itself
      obtain ⟨hac, hp2⟩ := List.cons_prefix_cons.mp hp
      cases cs with
      | nil =>
        have h0 : collapseGo false [] = ([] : Str) := rfl
        rw [h0, List.prefix_nil] at hp2
        simp at hp2
      | cons y cs' =>
        by_cases hy : isPyWS y = true
        · have he2 : collapseGo false (y :: cs') = ' ' :: collapseGo true cs' := by
            rw [collapseGo, if_pos hy, if_neg (by simp)]
          rw [he2] at hp2
          have := (List.cons_prefix_cons.mp hp2).1
          exact absurd this (by decide)
        · have he2 : collapseGo false (y :: cs') = y :: collapseGo false cs' := by
            rw [collapseGo, if_neg hy]
          rw [he2] at hp2
          obtain ⟨hdoty, hp3⟩ := List.cons_prefix_cons.mp hp2
          cases cs' with
          | nil =>
            have h0 : collapseGo false [] = ([] : Str) := rfl
            rw [h0, List.prefix_nil] at hp3
            simp at hp3
          | cons z cs'' =>
            by_cases hz : isPyWS z = true
            · have he3 : collapseGo false (z :: cs'') = ' ' :: collapseGo true cs'' := by
                rw [collapseGo, if_pos hz, if_neg (by simp)]
              rw [he3] at hp3
              have hbz := (List.cons_prefix_cons.mp hp3).1
              rw [hbz] at hb
              exact absurd hb (by decide)
            · have he3 : collapseGo false (z :: cs'') = z :: collapseGo false cs'' := by
                rw [collapseGo, if_neg hz]
              rw [he3] at hp3
              have hbz := (List.cons_prefix_cons.mp hp3).1
              refine hg a b ?_ hb
              refine List.IsPrefix.isInfix ?_
              refine List.cons_prefix_cons.mpr ⟨hac, ?_⟩
              refine List.cons_prefix_cons.mpr ⟨hdoty, ?_⟩
              exact List.cons_prefix_cons.mpr ⟨hbz, List.nil_prefix⟩
    · exact hgood a b h3 hb

theorem good_clean_spacing (s : Str) : GoodDots (clean_spacing s) := by
  rw [clean_spacing]
  apply GoodDots_mono (strip_infix_self _)
  exact good_collapseGo false _ (good_sap _)

theorem map_triple {f : Char → Char} {p q r : Char} {s : Str}
    (h : [p, q, r] <:+: s.map f) :
    ∃ a b c, [a, b, c] <:+: s ∧ f a = p ∧ f b = q ∧ f c = r := by
  induction s with
  | nil =>
    rw [List.map_nil] at h
    have h2 := List.eq_nil_of_infix_nil h
    simp at h2
  | cons x xs ih =>
    rw [List.map_cons] at h
    rcases List.infix_cons_iff.mp h with hp | h1
    · obtain ⟨h1, hp2⟩ := List.cons_prefix_cons.mp hp
      cases xs with
      | nil =>
        rw [List.map_nil, List.prefix_nil] at hp2
        simp at hp2
      | cons y ys =>
        rw [List.map_cons] at hp2
        obtain ⟨h2, hp3⟩ := List.cons_prefix_cons.mp hp2
        cases ys with
        | nil =>
          rw [List.map_nil, List.prefix_nil] at hp3
          simp at hp3
        | cons z zs =>
          rw [List.map_cons] at hp3
          obtain ⟨h3, _⟩ := List.cons_prefix_cons.mp hp3
          refine ⟨x, y, z, ?_, h1.symm, h2.symm, h3.symm⟩
          refine List.IsPrefix.isInfix ?_
          refine List.cons_prefix_cons.mpr ⟨rfl, ?_⟩
          refine List.cons_prefix_cons.mpr ⟨rfl, ?_⟩
          exact List.cons_prefix_cons.mpr ⟨rfl, List.nil_prefix⟩
    · obtain ⟨a, b, c, hin, hfa, hfb, hfc⟩ := ih h1
      exact ⟨a, b, c, hin.trans (List.IsSuffix.isInfix (List.suffix_cons x xs)), hfa, hfb, hfc⟩

theorem pyLower_eq_dot {c : Char} (h : pyLower c = '.') : c = '.' := by
  by_cases hu : 65 ≤ c.toNat ∧ c.toNat ≤ 90
  · have ht := pyLower_toNat_of_upper hu.1 hu.2
    rw [h] at ht
    have hdot : ('.').toNat = 46 := by decide
    omega
  · rw [pyLower_eq_self_of_not_upper hu] at h
    exact h

theorem nonws_of_pyLower_eq {c d : Char} (h : pyLower c = d) (hd : isPyWS d = false) :
    isPyWS c = false := by
  rw [← isPyWS_pyLower, h]
  exact hd

theorem no_site_of_good {s : Str} (hg : GoodDots s) :
    ¬ strLower LAUNCHPAD_WEBSITE <:+: strLower s := by
  intro hocc
  have htrip0 : (['o', '.', 'l'] : Str) <:+: strLower LAUNCHPAD_WEBSITE := by decide
  have htrip : (['o', '.', 'l'] : Str) <:+: strLower s := htrip0.trans hocc
  obtain ⟨a, b, c, hin, hfa, hfb, hfc⟩ := map_triple htrip
  have hb : b = '.' := pyLower_eq_dot hfb
  have hcns : isPyWS c = false := nonws_of_pyLower_eq hfc (by decide)
  rw [hb] at hin
  have ha := hg a c hin hcns
  rw [ha] at hfa
  exact absurd hfa (by decide)

theorem prefix_split_single {p a b : Str} {c : Char} (hc : c ∉ p) (h : p <+: a ++ c :: b) :
    p <+: a := by
  induction p generalizing a with
  | nil => exact List.nil_prefix
  | cons d p' ih =>
    cases a with
    | nil =>
      rw [List.nil_append] at h
      have hd := (List.cons_prefix_cons.mp h).1
      refine absurd ?_ hc
      rw [← hd]
      exact List.mem_cons_self d p'
    | cons x a' =>
      rw [List.cons_append] at h
      obtain ⟨hdx, h2⟩ := List.cons_prefix_cons.mp h
      have h3 := ih (fun hm => hc (List.mem_cons_of_mem d hm)) h2
      exact List.cons_prefix_cons.mpr ⟨hdx, h3⟩

theorem infix_split_single {p a b : Str} {c : Char} (hc : c ∉ p) (h : p <:+: a ++ c :: b) :
    p <:+: a ∨ p <:+: b := by
  induction a with
  | nil =>
    rw [List.nil_append] at h
    rcases List.infix_cons_iff.mp h with hp | h1
    · cases p with
      | nil => exact Or.inl List.nil_infix
      | cons d p' =>
        have hd := (List.cons_prefix_cons.mp hp).1
        refine absurd ?_ hc
        rw [← hd]
        exact List.mem_cons_self d p'
    · exact Or.inr h1
  | cons x a' ih =>
    rw [List.cons_append] at h
    rcases List.infix_cons_iff.mp h with hp | h1
    · have hp2 : p <+: (x :: a') ++ c :: b := by
        rw [List.cons_append]
        exact hp
      exact Or.inl (List.IsPrefix.isInfix (prefix_split_single hc hp2))
    · rcases ih h1 with h2 | h2
      · exact Or.inl (h2.trans (List.IsSuffix.isInfix (List.suffix_cons x a')))
      · exact Or.inr h2

theorem trim_cases (X : Str) :
    _trim_to_tweet X 280 = strip X ∨
    ∃ Y, _trim_to_tweet X 280 = Y ++ ['…'] ∧ Y <:+: X := by
  by_cases hlen : (strip X).length ≤ 280
  · exact Or.inl (trim_eq_strip hlen)
  · refine Or.inr ⟨rstrip ((strip X).take (280 - 1)), ?_, ?_⟩
    · unfold _trim_to_tweet
      rw [if_neg hlen]
    · refine List.IsInfix.trans (List.IsPrefix.isInfix (rstrip_prefix_self _)) ?_
      exact List.IsInfix.trans (List.IsPrefix.isInfix (List.take_prefix _ _)) (strip_infix_self X)

theorem occ_strLower_trim {p X : Str} (hell : ('…' : Char) ∉ p)
    (h : p <:+: strLower (_trim_to_tweet X 280)) : p <:+: strLower X := by
  rcases trim_cases X with heq | ⟨Y, heq, hY⟩
  · rw [heq] at h
    exact h.trans (List.IsInfix.map pyLower (strip_infix_self X))
  · rw [heq, strLower_append] at h
    have hl : strLower ['…'] = ('…' : Char) :: [] := by decide
    rw [hl] at h
    rcases infix_split_single hell h with h1 | h1
    · exact h1.trans (List.IsInfix.map pyLower hY)
    · have h2 := List.eq_nil_of_infix_nil h1
      subst h2
      exact List.nil_infix

theorem pool_tag_short : ∀ tag ∈ CRYPTO_HASHTAGS, tag.length ≤ 11 := by decide

theorem site_not_in_strLower_join {l : List Str} (hsub : ∀ x ∈ l, x ∈ CRYPTO_HASHTAGS) :
    ¬ strLower LAUNCHPAD_WEBSITE <:+: strLower (joinSpace l) := by
  induction l with
  | nil =>
    intro h
    have h2 := List.eq_nil_of_infix_nil (by simpa [joinSpace, strLower] using h)
    exact absurd h2 (by decide)
  | cons t ts ih =>
    intro h
    cases ts with
    | nil =>
      have hlen := List.IsInfix.length_le h
      have h12 : (strLower LAUNCHPAD_WEBSITE).length = 12 := by decide
      have hjs : joinSpace [t] = t := rfl
      rw [hjs] at hlen
      have hle : t.length ≤ 11 := pool_tag_short t (hsub t (List.mem_cons_self t []))
      rw [h12, strLower, List.length_map] at hlen
      omega
    | cons u us =>
      rw [joinSpace_cons_cons, strLower_append] at h
      have hsp : strLower (' ' :: joinSpace (u :: us)) =
          ' ' :: strLower (joinSpace (u :: us)) := by
        rw [strLower, List.map_cons]
        have hspc : pyLower ' ' = ' ' := by decide
        rw [hspc]
        rfl
      rw [hsp] at h
      have hnospace : (' ' : Char) ∉ strLower LAUNCHPAD_WEBSITE := by decide
      rcases infix_split_single hnospace h with h1 | h1
      · have hlen := List.IsInfix.length_le h1
        have h12 : (strLower LAUNCHPAD_WEBSITE).length = 12 := by decide
        have hle : t.length ≤ 11 := pool_tag_short t (hsub t (List.mem_cons_self t (u :: us)))
        rw [h12, strLower, List.length_map] at hlen
        omega
      · exact ih (fun x hx => hsub x (List.mem_cons_of_mem t hx)) h1

/-- C7: For every draft text and every sampling outcome drawn from the tag
pool, when `include_site` is false the output of `finalize_tweet` contains no
case-insensitive occurrence of the configured website domain
`wenlambo.lol`.  (The forbidden-substring removal pass alone does not
guarantee this — deleting an occurrence can splice a new one together — but
`clean_spacing` then inserts a space after every full stop that touches a
word character, so the domain pattern cannot survive finalization, and the
later hashtag-append and trim steps cannot reintroduce it.) -/
theorem finalize_tweet_no_site (sample : Nat → List Str) (text launchpad_name : Str)
    (hsub : ∀ n, ∀ x ∈ sample n, x ∈ CRYPTO_HASHTAGS) :
    isSubstrOf (strLower LAUNCHPAD_WEBSITE)
      (strLower (finalize_tweet sample text launchpad_name LAUNCHPAD_WEBSITE false)) =
      false := by
  rw [Bool.eq_false_iff]
  intro hocc
  have h := isSubstrOf_iff.mp hocc
  rw [finalize_tweet_eq] at h
  have hell : ('…' : Char) ∉ strLower LAUNCHPAD_WEBSITE := by decide
  have h1 := occ_strLower_trim hell h
  by_cases hpos : 0 < 3 - (hashtags_in_text
      (finalize_pre text launchpad_name LAUNCHPAD_WEBSITE false)).length
  · rw [add_crypto_hashtags_of_pos rfl hpos] at h1
    have h2 := occ_strLower_trim hell h1
    rw [strLower_append] at h2
    have hsp : strLower (' ' :: joinSpace (sample (3 - (hashtags_in_text
        (finalize_pre text launchpad_name LAUNCHPAD_WEBSITE false)).length))) =
        ' ' :: strLower (joinSpace (sample (3 - (hashtags_in_text
          (finalize_pre text launchpad_name LAUNCHPAD_WEBSITE false)).length))) := by
      rw [strLower, List.map_cons]
      have hspc : pyLower ' ' = ' ' := by decide
      rw [hspc]
      rfl
    rw [hsp] at h2
    have hnospace : (' ' : Char) ∉ strLower LAUNCHPAD_WEBSITE := by decide
    rcases infix_split_single hnospace h2 with h3 | h3
    · exact no_site_of_good (good_clean_spacing _) h3
    · exact site_not_in_strLower_join (hsub _) h3
  · rw [add_crypto_hashtags_of_zero hpos] at h1
    exact no_site_of_good (good_clean_spacing _) h1

theorem finalize_tweet_no_site_witness :
    isSubstrOf (strLower LAUNCHPAD_WEBSITE)
      (strLower (finalize_tweet sampleHead (str "wenlamwenlambo.lolbo.lol")
        LAUNCHPAD_NAME LAUNCHPAD_WEBSITE false)) = false :=
  finalize_tweet_no_site sampleHead (str "wenlamwenlambo.lolbo.lol") LAUNCHPAD_NAME
    (fun n x hx => List.take_subset n CRYPTO_HASHTAGS hx)

/-! ### C8: idempotence of the normalization transforms -/

/-- No two adjacent whitespace characters. -/
def NoWW (s : Str) : Prop :=
  ∀ x y : Char, [x, y] <:+: s → ¬(isPyWS x = true ∧ isPyWS y = true)

/-- No whitespace character immediately followed by punctuation. -/
def NWP (s : Str) : Prop :=
  ∀ x y : Char, [x, y] <:+: s → ¬(isPyWS x = true ∧ isPunct y = true)

/-- Every whitespace character is a plain space. -/
def AllWsSpace (s : Str) : Prop :=
  ∀ c ∈ s, isPyWS c = true → c = ' '

/-- The string neither starts nor ends with whitespace. -/
def Stripped (s : Str) : Prop :=
  (∀ c, s.head? = some c → isPyWS c = false) ∧
  (∀ c, s.getLast? = some c → isPyWS c = false)

theorem NoWW_mono {s' s : Str} (h : s' <:+: s) (hg : NoWW s) : NoWW s' :=
  fun x y hxy => hg x y (hxy.trans h)

theorem NWP_mono {s' s : Str} (h : s' <:+: s) (hg : NWP s) : NWP s' :=
  fun x y hxy => hg x y (hxy.trans h)

theorem AllWsSpace_mono {s' s : Str} (h : s' ⊆ s) (hg : AllWsSpace s) : AllWsSpace s' :=
  fun c hc => hg c (h hc)

theorem pair_prefix_build (x y : Char) (t : Str) : [x, y] <+: x :: y :: t :=
  List.cons_prefix_cons.mpr ⟨rfl, List.cons_prefix_cons.mpr ⟨rfl, List.nil_prefix⟩⟩

theorem punct_not_ws {c : Char} (h : isPunct c = true) : isPyWS c = false := by
  rw [Bool.eq_false_iff]
  intro hws
  have h1 := isPunct_iff_toNat.mp h
  have h2 := isPyWS_iff_toNat.mp hws
  omega

theorem ws_not_punct {c : Char} (h : isPyWS c = true) : isPunct c = false := by
  rw [Bool.eq_false_iff]
  intro hp
  have h1 := isPunct_iff_toNat.mp hp
  have h2 := isPyWS_iff_toNat.mp h
  omega

/-- A two-character factor of `A ++ B` lies in `A`, lies in `B`, or straddles
the boundary. -/
theorem pair_infix_append {x y : Char} {A B : Str} (h : [x, y] <:+: A ++ B) :
    [x, y] <:+: A ∨ [x, y] <:+: B ∨
    (∃ A', A = A' ++ [x]) ∧ (∃ B', B = y :: B') := by
  induction A with
  | nil =>
    rw [List.nil_append] at h
    exact Or.inr (Or.inl h)
  | cons a A' ih =>
    rw [List.cons_append] at h
    rcases List.infix_cons_iff.mp h with hp | h1
    · obtain ⟨hxa, hp2⟩ := List.cons_prefix_cons.mp hp
      cases A' with
      | nil =>
        rw [List.nil_append] at hp2
        cases B with
        | nil =>
          rw [List.prefix_nil] at hp2
          simp at hp2
        | cons b B' =>
          have hyb := (List.cons_prefix_cons.mp hp2).1
          subst hxa
          refine Or.inr (Or.inr ⟨⟨[], by simp⟩, ⟨B', by rw [hyb]⟩⟩)
      | cons a2 A'' =>
        rw [List.cons_append] at hp2
        have hya2 := (List.cons_prefix_cons.mp hp2).1
        subst hxa
        subst hya2
        exact Or.inl (List.IsPrefix.isInfix (pair_prefix_build x y A''))
    · rcases ih h1 with h2 | h2 | ⟨⟨A'', hA⟩, hB⟩
      · exact Or.inl (h2.trans (List.IsSuffix.isInfix (List.suffix_cons a A')))
      · exact Or.inr (Or.inl h2)
      · exact Or.inr (Or.inr ⟨⟨a :: A'', by rw [hA, List.cons_append]⟩, hB⟩)

theorem sap_cons_nonpunct {c : Char} (hc : isPunct c = false) (X : Str) :
    spaceAfterPunct (c :: X) = c :: spaceAfterPunct X := by
  cases X with
  | nil => rfl
  | cons d X' =>
    rw [spaceAfterPunct, if_neg (by simp [hc])]

theorem sap_nomatch {c d : Char} {cs : Str} (h : ¬(isPunct c && !isPyWS d) = true) :
    spaceAfterPunct (c :: d :: cs) = c :: spaceAfterPunct (d :: cs) := by
  rw [spaceAfterPunct, if_neg h]

theorem sap_match {c d : Char} {cs : Str} (h : (isPunct c && !isPyWS d) = true) :
    spaceAfterPunct (c :: d :: cs) = c :: ' ' :: d :: spaceAfterPunct cs := by
  rw [spaceAfterPunct, if_pos h]

theorem mem_sap {c : Char} {s : Str} (h : c ∈ spaceAfterPunct s) : c ∈ s ∨ c = ' ' := by
  induction s using spaceAfterPunct.induct with
  | case1 => simp [spaceAfterPunct] at h
  | case2 d =>
    have h0 : spaceAfterPunct [d] = [d] := rfl
    rw [h0] at h
    exact Or.inl h
  | case3 x d cs hcond ih =>
    rw [sap_match hcond] at h
    rcases List.mem_cons.mp h with rfl | h
    · exact Or.inl (List.mem_cons_self _ _)
    rcases List.mem_cons.mp h with rfl | h
    · exact Or.inr rfl
    rcases List.mem_cons.mp h with rfl | h
    · exact Or.inl (List.mem_cons_of_mem _ (List.mem_cons_self _ _))
    · rcases ih h with h2 | h2
      · exact Or.inl (List.mem_cons_of_mem _ (List.mem_cons_of_mem _ h2))
      · exact Or.inr h2
  | case4 x d cs hcond ih =>
    rw [sap_nomatch hcond] at h
    rcases List.mem_cons.mp h with rfl | h
    · exact Or.inl (List.mem_cons_self _ _)
    · rcases ih h with h2 | h2
      · exact Or.inl (List.mem_cons_of_mem _ h2)
      · exact Or.inr h2

theorem AllWsSpace_sap {s : Str} (h : AllWsSpace s) : AllWsSpace (spaceAfterPunct s) := by
  intro c hc hws
  rcases mem_sap hc with h2 | h2
  · exact h c h2 hws
  · exact h2

theorem NoWW_sap {s : Str} (hg : NoWW s) : NoWW (spaceAfterPunct s) := by
  induction s using spaceAfterPunct.induct with
  | case1 =>
    intro x y hxy
    have h0 : spaceAfterPunct [] = ([] : Str) := rfl
    rw [h0] at hxy
    have := List.eq_nil_of_infix_nil hxy
    simp at this
  | case2 d =>
    intro x y hxy
    have h0 : spaceAfterPunct [d] = [d] := rfl
    rw [h0] at hxy
    have := List.IsInfix.length_le hxy
    simp at this
  | case3 c d cs hcond ih =>
    have hcond2 : isPunct c = true ∧ isPyWS d = false := by
      simpa using hcond
    have hcp : isPunct c = true := hcond2.1
    have hdn : isPyWS d = false := hcond2.2
    intro x y hxy hcontra
    rw [sap_match hcond] at hxy
    rcases List.infix_cons_iff.mp hxy with hp | h1
    · have hx := (List.cons_prefix_cons.mp hp).1
      rw [hx, punct_not_ws hcp] at hcontra
      simp at hcontra
    · rcases List.infix_cons_iff.mp h1 with hp | h2
      · have hy := (List.cons_prefix_cons.mp ((List.cons_prefix_cons.mp hp).2)).1
        rw [hy, hdn] at hcontra
        simp at hcontra
      · rcases List.infix_cons_iff.mp h2 with hp | h3
        · have hx := (List.cons_prefix_cons.mp hp).1
          rw [hx, hdn] at hcontra
          simp at hcontra
        · exact ih (NoWW_mono (List.IsSuffix.isInfix
            (List.IsSuffix.trans (List.suffix_cons d cs) (List.suffix_cons c (d :: cs)))) hg)
            x y h3 hcontra
  | case4 c d cs hcond ih =>
    intro x y hxy hcontra
    rw [sap_nomatch hcond] at hxy
    have hgd : NoWW (d :: cs) := NoWW_mono (List.IsSuffix.isInfix (List.suffix_cons c _)) hg
    rcases List.infix_cons_iff.mp hxy with hp | h1
    · obtain ⟨hx, hp2⟩ := List.cons_prefix_cons.mp hp
      obtain ⟨t, ht⟩ := head_sap d cs
      rw [ht] at hp2
      have hy := (List.cons_prefix_cons.mp hp2).1
      refine hg x y ?_ hcontra
      rw [hx, hy]
      exact List.IsPrefix.isInfix (pair_prefix_build c d cs)
    · exact ih hgd x y h1 hcontra

theorem cg_ws_true {c : Char} (hc : isPyWS c = true) (cs : Str) :
    collapseGo true (c :: cs) = collapseGo true cs := by
  rw [collapseGo, if_pos hc, if_pos rfl]

theorem cg_ws_false {c : Char} (hc : isPyWS c = true) (cs : Str) :
    collapseGo false (c :: cs) = ' ' :: collapseGo true cs := by
  rw [collapseGo, if_pos hc, if_neg (by simp)]

theorem cg_nonws {c : Char} (hc : isPyWS c = false) (b : Bool) (cs : Str) :
    collapseGo b (c :: cs) = c :: collapseGo false cs := by
  rw [collapseGo, if_neg (by simp [hc])]

theorem collapse_true_dropWhile (cs : Str) :
    collapseGo true cs = collapseGo true (cs.dropWhile isPyWS) := by
  induction cs with
  | nil => rfl
  | cons c cs ih =>
    by_cases hc : isPyWS c = true
    · rw [cg_ws_true hc, List.dropWhile_cons_of_pos hc, ih]
    · rw [List.dropWhile_cons_of_neg (by simpa using hc)]

theorem dropWhile_head_not {p : Char → Bool} {l : Str} {e : Char} {t : Str}
    (h : l.dropWhile p = e :: t) : p e = false := by
  induction l with
  | nil => simp [List.dropWhile] at h
  | cons c cs ih =>
    by_cases hc : p c = true
    · rw [List.dropWhile_cons_of_pos hc] at h
      exact ih h
    · rw [List.dropWhile_cons_of_neg hc] at h
      rw [← (List.cons.inj h).1]
      simpa using hc

theorem first_nonws_pair {cs : Str} {e : Char} {cs₂ : Str}
    (h : cs.dropWhile isPyWS = e :: cs₂) :
    cs = e :: cs₂ ∨ ∃ w, isPyWS w = true ∧ [w, e] <:+: cs := by
  induction cs with
  | nil => simp [List.dropWhile] at h
  | cons c cs' ih =>
    by_cases hc : isPyWS c = true
    · rw [List.dropWhile_cons_of_pos hc] at h
      rcases ih h with h2 | ⟨w, hw, hpair⟩
      · refine Or.inr ⟨c, hc, ?_⟩
        rw [h2]
        exact List.IsPrefix.isInfix (pair_prefix_build c e cs₂)
      · exact Or.inr ⟨w, hw, hpair.trans (List.IsSuffix.isInfix (List.suffix_cons c cs'))⟩
    · rw [List.dropWhile_cons_of_neg hc] at h
      exact Or.inl h

theorem collapse_true_head (cs : Str) :
    collapseGo true cs = [] ∨
    ∃ e t, collapseGo true cs = e :: t ∧ isPyWS e = false := by
  induction cs with
  | nil => exact Or.inl rfl
  | cons c cs ih =>
    by_cases hc : isPyWS c = true
    · rw [cg_ws_true hc]
      exact ih
    · rw [cg_nonws (by simpa using hc)]
      exact Or.inr ⟨c, _, rfl, by simpa using hc⟩

theorem AllWsSpace_collapseGo (b : Bool) (s : Str) : AllWsSpace (collapseGo b s) := by
  induction s generalizing b with
  | nil =>
    intro c hc
    simp [collapseGo] at hc
  | cons c cs ih =>
    by_cases hc : isPyWS c = true
    · cases b with
      | true =>
        rw [cg_ws_true hc]
        exact ih true
      | false =>
        rw [cg_ws_false hc]
        intro x hx hws
        rcases List.mem_cons.mp hx with rfl | hx
        · rfl
        · exact ih true x hx hws
    · rw [cg_nonws (by simpa using hc)]
      intro x hx hws
      rcases List.mem_cons.mp hx with rfl | hx
      · exact absurd hws (by simpa using hc)
      · exact ih false x hx hws

theorem NoWW_collapseGo (b : Bool) (s : Str) : NoWW (collapseGo b s) := by
  induction s generalizing b with
  | nil =>
    intro x y hxy
    have h0 : collapseGo b [] = ([] : Str) := rfl
    rw [h0] at hxy
    have := List.eq_nil_of_infix_nil hxy
    simp at this
  | cons c cs ih =>
    by_cases hc : isPyWS c = true
    · cases b with
      | true =>
        rw [cg_ws_true hc]
        exact ih true
      | false =>
        rw [cg_ws_false hc]
        intro x y hxy hcontra
        rcases List.infix_cons_iff.mp hxy with hp | h1
        · obtain ⟨hx, hp2⟩ := List.cons_prefix_cons.mp hp
          rcases collapse_true_head cs with hnil | ⟨e, t, he, hens⟩
          · rw [hnil, List.prefix_nil] at hp2
            simp at hp2
          · rw [he] at hp2
            have hy := (List.cons_prefix_cons.mp hp2).1
            rw [hy, hens] at hcontra
            simp at hcontra
        · exact ih true x y h1 hcontra
    · rw [cg_nonws (by simpa using hc)]
      intro x y hxy hcontra
      rcases List.infix_cons_iff.mp hxy with hp | h1
      · have hx := (List.cons_prefix_cons.mp hp).1
        rw [hx] at hcontra
        exact absurd hcontra.1 (by simpa using hc)
      · exact ih false x y h1 hcontra

theorem NWP_collapseGo_aux : ∀ n s b, List.length s ≤ n → NWP s → NWP (collapseGo b s)
  | 0, s, b, hn, _ => by
    have hs : s = [] := List.eq_nil_of_length_eq_zero (Nat.le_zero.mp hn)
    subst hs
    intro x y hxy
    have h0 : collapseGo b [] = ([] : Str) := rfl
    rw [h0] at hxy
    have := List.eq_nil_of_infix_nil hxy
    simp at this
  | n + 1, s, b, hn, hg => by
    cases s with
    | nil =>
      intro x y hxy
      have h0 : collapseGo b [] = ([] : Str) := rfl
      rw [h0] at hxy
      have := List.eq_nil_of_infix_nil hxy
      simp at this
    | cons c cs =>
      have hlen : cs.length ≤ n := by
        simpa using hn
      have hgcs : NWP cs := NWP_mono (List.IsSuffix.isInfix (List.suffix_cons c cs)) hg
      by_cases hc : isPyWS c = true
      · cases b with
        | true =>
          rw [cg_ws_true hc]
          exact NWP_collapseGo_aux n cs true hlen hgcs
        | false =>
          rw [cg_ws_false hc, collapse_true_dropWhile]
          cases hdw : cs.dropWhile isPyWS with
          | nil =>
            intro x y hxy hcontra
            have h0 : collapseGo true [] = ([] : Str) := rfl
            rw [h0] at hxy
            have := List.IsInfix.length_le hxy
            simp at this
          | cons e cs₂ =>
            have hens : isPyWS e = false := dropWhile_head_not hdw
            rw [cg_nonws hens]
            intro x y hxy hcontra
            rcases List.infix_cons_iff.mp hxy with hp | h1
            · obtain ⟨hx, hp2⟩ := List.cons_prefix_cons.mp hp
              have hy := (List.cons_prefix_cons.mp hp2).1
              subst hy
              refine absurd hcontra.2 ?_
              rw [Bool.not_eq_true]
              rcases first_nonws_pair hdw with h2 | ⟨w, hw, hpair⟩
              · have hfac : [c, y] <:+: c :: cs := by
                  rw [h2]
                  exact List.IsPrefix.isInfix (pair_prefix_build c y cs₂)
                have := hg c y hfac
                simp [hc] at this
                exact this
              · have hfac : [w, y] <:+: c :: cs :=
                  hpair.trans (List.IsSuffix.isInfix (List.suffix_cons c cs))
                have := hg w y hfac
                simp [hw] at this
                exact this
            · rcases List.infix_cons_iff.mp h1 with hp | h2
              · have hx := (List.cons_prefix_cons.mp hp).1
                rw [hx, hens] at hcontra
                simp at hcontra
              · have hsuf : cs₂ <:+: cs := by
                  refine List.IsSuffix.isInfix ?_
                  have h3 : cs₂ <:+ cs.dropWhile isPyWS := by
                    rw [hdw]
                    exact List.suffix_cons e cs₂
                  exact h3.trans (List.dropWhile_suffix isPyWS)
                have hlen₂ : cs₂.length ≤ n := by
                  have := List.IsInfix.length_le hsuf
                  omega
                exact NWP_collapseGo_aux n cs₂ false hlen₂
                  (NWP_mono hsuf hgcs) x y h2 hcontra
      · rw [cg_nonws (by simpa using hc)]
        intro x y hxy hcontra
        rcases List.infix_cons_iff.mp hxy with hp | h1
        · have hx := (List.cons_prefix_cons.mp hp).1
          rw [hx] at hcontra
          exact absurd hcontra.1 (by simpa using hc)
        · exact NWP_collapseGo_aux n cs false hlen hgcs x y h1 hcontra

theorem NWP_collapseGo {s : Str} (b : Bool) (hg : NWP s) : NWP (collapseGo b s) :=
  NWP_collapseGo_aux s.length s b le_rfl hg

theorem dwg_ws {c : Char} (hc : isPyWS c = true) (cs : Str) :
    delWsGo (c :: cs) = delWsRun [c] cs := by
  rw [delWsGo, if_pos hc]

theorem dwg_nonws {c : Char} (hc : isPyWS c = false) (cs : Str) :
    delWsGo (c :: cs) = c :: delWsGo cs := by
  rw [delWsGo, if_neg (by simp [hc])]

theorem dwr_nil (run : Str) : delWsRun run [] = run := by
  rw [delWsRun]

theorem dwr_ws (run : Str) {c : Char} (hc : isPyWS c = true) (cs : Str) :
    delWsRun run (c :: cs) = delWsRun (run ++ [c]) cs := by
  rw [delWsRun, if_pos hc]

theorem dwr_punct (run : Str) {c : Char} (hc : isPyWS c = false)
    (hp : isPunct c = true) (cs : Str) :
    delWsRun run (c :: cs) = c :: delWsGo cs := by
  rw [delWsRun, if_neg (by simp [hc]), if_pos hp]

theorem dwr_other (run : Str) {c : Char} (hc : isPyWS c = false)
    (hp : isPunct c = false) (cs : Str) :
    delWsRun run (c :: cs) = run ++ c :: delWsGo cs := by
  rw [delWsRun, if_neg (by simp [hc]), if_neg (by simp [hp])]

theorem NWP_of_allws {run : Str} (h : ∀ c ∈ run, isPyWS c = true) : NWP run := by
  intro x y hxy hcontra
  have hy : y ∈ run := (List.IsInfix.subset hxy) (by simp)
  have := ws_not_punct (h y hy)
  rw [this] at hcontra
  simp at hcontra

theorem NWP_del : ∀ n s run, List.length s ≤ n → (∀ c ∈ run, isPyWS c = true) →
    NWP (delWsGo s) ∧ NWP (delWsRun run s)
  | n, [], run, _, hrun => by
    constructor
    · intro x y hxy
      have h0 : delWsGo [] = ([] : Str) := by rw [delWsGo]
      rw [h0] at hxy
      have := List.eq_nil_of_infix_nil hxy
      simp at this
    · rw [dwr_nil]
      exact NWP_of_allws hrun
  | 0, c :: cs, run, hn, hrun => by
    simp at hn
  | n + 1, c :: cs, run, hn, hrun => by
    have hlen : cs.length ≤ n := by simpa using hn
    by_cases hc : isPyWS c = true
    · constructor
      · rw [dwg_ws hc]
        exact (NWP_del n cs [c] hlen (by simpa using hc)).2
      · rw [dwr_ws run hc]
        refine (NWP_del n cs (run ++ [c]) hlen ?_).2
        intro d hd
        rcases List.mem_append.mp hd with hd | hd
        · exact hrun d hd
        · rw [List.mem_singleton.mp hd]
          exact hc
    · have hc' : isPyWS c = false := by simpa using hc
      have hgo : NWP (c :: delWsGo cs) := by
        intro x y hxy hcontra
        rcases List.infix_cons_iff.mp hxy with hp | h1
        · have hx := (List.cons_prefix_cons.mp hp).1
          rw [hx, hc'] at hcontra
          simp at hcontra
        · exact (NWP_del n cs [] hlen (by simp)).1 x y h1 hcontra
      constructor
      · rw [dwg_nonws hc']
        exact hgo
      · by_cases hpc : isPunct c = true
        · rw [dwr_punct run hc' hpc]
          exact hgo
        · rw [dwr_other run hc' (by simpa using hpc)]
          intro x y hxy hcontra
          rcases pair_infix_append hxy with h1 | h1 | ⟨_, ⟨B', hB⟩⟩
          · exact NWP_of_allws hrun x y h1 hcontra
          · exact hgo x y h1 hcontra
          · have hy : y = c := (List.cons.inj hB.symm).1
            rw [hy] at hcontra
            exact absurd hcontra.2 (by simpa using hpc)

theorem NWP_delWsGo (s : Str) : NWP (delWsGo s) :=
  (NWP_del s.length s [] le_rfl (by simp)).1

theorem getLast_cons_eq {X Y : Str} (h : X.getLast? = Y.getLast?) (d : Char) :
    (d :: X).getLast? = (d :: Y).getLast? := by
  cases X with
  | nil =>
    cases Y with
    | nil => rfl
    | cons y ys =>
      exfalso
      have h2 : (y :: ys).getLast?.isSome := List.getLast?_isSome.mpr (by simp)
      rw [← h] at h2
      simp at h2
  | cons x xs =>
    cases Y with
    | nil =>
      exfalso
      have h2 : (x :: xs).getLast?.isSome := List.getLast?_isSome.mpr (by simp)
      rw [h] at h2
      simp at h2
    | cons y ys =>
      rw [List.getLast?_cons_cons, List.getLast?_cons_cons, h]

theorem sap_getLast (s : Str) : (spaceAfterPunct s).getLast? = s.getLast? := by
  induction s using spaceAfterPunct.induct with
  | case1 => rfl
  | case2 d => rfl
  | case3 c d cs hcond ih =>
    rw [sap_match hcond, List.getLast?_cons_cons, List.getLast?_cons_cons]
    exact getLast_cons_eq ih d
  | case4 c d cs hcond ih =>
    rw [sap_nomatch hcond]
    exact getLast_cons_eq ih c

theorem sap_allws {W : Str} (h : ∀ c ∈ W, isPyWS c = true) :
    spaceAfterPunct W = W := by
  induction W with
  | nil => rfl
  | cons w W' ih =>
    have hw : isPyWS w = true := h w (List.mem_cons_self _ _)
    have hnp : isPunct w = false := ws_not_punct hw
    rw [sap_cons_nonpunct hnp, ih (fun c hc => h c (List.mem_cons_of_mem _ hc))]

theorem sap_append_allws {W : Str} (hW : ∀ c ∈ W, isPyWS c = true) (T : Str) :
    spaceAfterPunct (T ++ W) = spaceAfterPunct T ++ W := by
  induction T using spaceAfterPunct.induct with
  | case1 =>
    rw [List.nil_append, sap_allws hW]
    rfl
  | case2 d =>
    cases W with
    | nil => rfl
    | cons w W' =>
      have hw : isPyWS w = true := hW w (List.mem_cons_self _ _)
      have hcond : ¬(isPunct d && !isPyWS w) = true := by simp [hw]
      rw [List.singleton_append, sap_nomatch hcond,
        sap_allws (fun c hc => hW c hc)]
      rfl
  | case3 c d cs hcond ih =>
    rw [List.cons_append, List.cons_append, sap_match hcond, sap_match hcond, ih,
      List.cons_append, List.cons_append, List.cons_append]
  | case4 c d cs hcond ih =>
    rw [List.cons_append, List.cons_append, sap_nomatch hcond, ← List.cons_append,
      ih, sap_nomatch hcond, List.cons_append]

theorem lstrip_sap (X : Str) : lstrip (spaceAfterPunct X) = spaceAfterPunct (lstrip X) := by
  induction X with
  | nil => rfl
  | cons c X' ih =>
    by_cases hc : isPyWS c = true
    · have hnp : isPunct c = false := ws_not_punct hc
      have h1 : lstrip (c :: spaceAfterPunct X') = lstrip (spaceAfterPunct X') := by
        rw [lstrip, lstrip, List.dropWhile_cons_of_pos hc]
      have h2 : lstrip (c :: X') = lstrip X' := by
        rw [lstrip, lstrip, List.dropWhile_cons_of_pos hc]
      rw [sap_cons_nonpunct hnp, h1, h2, ih]
    · obtain ⟨t, ht⟩ := head_sap c X'
      have hc' : isPyWS c = false := by simpa using hc
      have h1 : lstrip (c :: t) = c :: t := by
        rw [lstrip, List.dropWhile_cons_of_neg (by simp [hc'])]
      have h2 : lstrip (c :: X') = c :: X' := by
        rw [lstrip, List.dropWhile_cons_of_neg (by simp [hc'])]
      rw [ht, h1, h2, ← ht]

theorem rstrip_append_allws {W : Str} (hW : ∀ c ∈ W, isPyWS c = true) (A : Str) :
    rstrip (A ++ W) = rstrip A := by
  rw [rstrip, rstrip, List.reverse_append, List.dropWhile_append]
  have hnil : W.reverse.dropWhile isPyWS = [] :=
    List.dropWhile_eq_nil_iff.mpr (fun x hx => hW x (List.mem_reverse.mp hx))
  rw [hnil]
  simp

theorem rstrip_eq_self_of_last {A : Str}
    (h : ∀ c, A.getLast? = some c → isPyWS c = false) : rstrip A = A := by
  rw [rstrip]
  cases hr : A.reverse with
  | nil =>
    have : A = [] := by simpa using congrArg List.reverse hr
    rw [this]
    rfl
  | cons x xs =>
    have hx : A.getLast? = some x := by
      rw [← List.head?_reverse A, hr]
      rfl
    rw [List.dropWhile_cons_of_neg (by simp [h x hx]), ← hr, List.reverse_reverse]

theorem X_decomp (X : Str) :
    X = rstrip X ++ (X.reverse.takeWhile isPyWS).reverse ∧
    (∀ c ∈ (X.reverse.takeWhile isPyWS).reverse, isPyWS c = true) := by
  constructor
  · rw [rstrip]
    have h1 := List.takeWhile_append_dropWhile isPyWS X.reverse
    have h2 := congrArg List.reverse h1
    rw [List.reverse_append, List.reverse_reverse] at h2
    exact h2.symm
  · intro c hc
    exact List.mem_takeWhile_imp (List.mem_reverse.mp hc)

theorem rstrip_sap (X : Str) : rstrip (spaceAfterPunct X) = spaceAfterPunct (rstrip X) := by
  obtain ⟨hdec, hW⟩ := X_decomp X
  have h1 : spaceAfterPunct X = spaceAfterPunct (rstrip X) ++ (X.reverse.takeWhile isPyWS).reverse := by
    conv_lhs => rw [hdec]
    exact sap_append_allws hW (rstrip X)
  rw [h1, rstrip_append_allws hW]
  apply rstrip_eq_self_of_last
  intro c hc
  rw [sap_getLast] at hc
  have hfix : rstrip (rstrip X) = rstrip X := by
    rw [rstrip, rstrip, List.reverse_reverse, List.dropWhile_idempotent]
  have h3 := congrArg (fun l => List.head? (List.dropWhile isPyWS l)) (congrArg List.reverse hfix)
  rcases hh : (rstrip X).reverse.head? with _ | ⟨x⟩
  · rw [← List.head?_reverse (rstrip X), hh] at hc
    simp at hc
  · cases hrr : (rstrip X).reverse with
    | nil =>
      rw [hrr] at hh
      simp at hh
    | cons y ys =>
      rw [hrr] at hh
      have hxy : y = x := by simpa using hh
      subst hxy
      have hcy : c = y := by
        rw [← List.head?_reverse (rstrip X), hrr] at hc
        simpa using hc.symm
      subst hcy
      by_contra hcws
      have hcw : isPyWS c = true := by simpa using hcws
      have h4 : (rstrip X).reverse.dropWhile isPyWS = (rstrip X).reverse := by
        have := congrArg List.reverse hfix
        rw [rstrip, List.reverse_reverse] at this
        exact this
      rw [hrr, List.dropWhile_cons_of_pos hcw] at h4
      have := congrArg List.length h4
      have h5 := (List.dropWhile_suffix isPyWS (l := ys)).length_le
      simp at this
      omega

theorem strip_sap (X : Str) : strip (spaceAfterPunct X) = spaceAfterPunct (strip X) := by
  rw [strip, strip, lstrip_sap, rstrip_sap]

theorem collapse_sap_aux : ∀ n X b, List.length X ≤ n →
    collapseGo b (spaceAfterPunct X) = spaceAfterPunct (collapseGo b X)
  | n, [], b, _ => by
    have h0 : spaceAfterPunct [] = ([] : Str) := rfl
    have h1 : collapseGo b [] = ([] : Str) := rfl
    rw [h0, h1, h0]
  | n, [c], b, _ => by
    have h0 : spaceAfterPunct [c] = [c] := rfl
    rw [h0]
    by_cases hc : isPyWS c = true
    · cases b with
      | true => rw [cg_ws_true hc]; rfl
      | false => rw [cg_ws_false hc]; rfl
    · rw [cg_nonws (by simpa using hc)]
      rfl
  | 0, c :: d :: cs, b, hn => by
    simp at hn
  | n + 1, c :: d :: cs, b, hn => by
    have hlen1 : cs.length ≤ n := by simp at hn; omega
    have hlen2 : (d :: cs).length ≤ n := by simp at hn; simp; omega
    by_cases hcond : (isPunct c && !isPyWS d) = true
    · have hc2 : isPunct c = true ∧ isPyWS d = false := by simpa using hcond
      have hcn : isPyWS c = false := punct_not_ws hc2.1
      rw [sap_match hcond, cg_nonws hcn, cg_ws_false (by decide), cg_nonws hc2.2,
        cg_nonws hcn, cg_nonws hc2.2, sap_match hcond,
        collapse_sap_aux n cs false hlen1]
    · rw [sap_nomatch hcond]
      by_cases hcp : isPunct c = true
      · have hdw : isPyWS d = true := by
          by_contra hdw
          exact hcond (by simp [hcp, by simpa using hdw])
        have hcn : isPyWS c = false := punct_not_ws hcp
        have hdp : isPunct d = false := ws_not_punct hdw
        rw [sap_cons_nonpunct hdp, cg_nonws hcn, cg_ws_false hdw,
          cg_nonws hcn, cg_ws_false hdw, sap_nomatch (by simp [show isPyWS ' ' = true from by decide]),
          sap_cons_nonpunct (by decide), collapse_sap_aux n cs true hlen1]
      · have hcp' : isPunct c = false := by simpa using hcp
        by_cases hcw : isPyWS c = true
        · cases b with
          | true =>
            rw [cg_ws_true hcw, cg_ws_true hcw,
              collapse_sap_aux n (d :: cs) true hlen2]
          | false =>
            rw [cg_ws_false hcw, cg_ws_false hcw,
              collapse_sap_aux n (d :: cs) true hlen2,
              sap_cons_nonpunct (by decide)]
        · have hcw' : isPyWS c = false := by simpa using hcw
          rw [cg_nonws hcw', cg_nonws hcw',
            collapse_sap_aux n (d :: cs) false hlen2,
            sap_cons_nonpunct hcp']

theorem collapseWS_sap (X : Str) :
    collapseWS (spaceAfterPunct X) = spaceAfterPunct (collapseWS X) := by
  rw [collapseWS, collapseWS, collapse_sap_aux X.length X false le_rfl]

/-- Core of the `clean_spacing` idempotence argument: on a string with no
whitespace-whitespace and no whitespace-punctuation adjacencies, running the
whitespace-before-punctuation deletion pass on the space-after-punctuation
output and re-spacing changes nothing. -/
theorem sap_del_sap_aux : ∀ n K, List.length K ≤ n → NWP K → NoWW K →
    spaceAfterPunct (delWsGo (spaceAfterPunct K)) = spaceAfterPunct K
  | n, [], _, _, _ => by
    have h0 : spaceAfterPunct [] = ([] : Str) := rfl
    have h1 : delWsGo [] = ([] : Str) := by rw [delWsGo]
    rw [h0, h1, h0]
  | n, [c], _, _, _ => by
    have h0 : spaceAfterPunct [c] = [c] := rfl
    rw [h0]
    by_cases hc : isPyWS c = true
    · rw [dwg_ws hc, dwr_nil]
      rfl
    · rw [dwg_nonws (by simpa using hc)]
      have h1 : delWsGo [] = ([] : Str) := by rw [delWsGo]
      rw [h1]
      rfl
  | 0, c :: d :: cs, hn, _, _ => by
    simp at hn
  | n + 1, c :: d :: cs, hn, hNWP, hNoWW => by
    have hlen1 : cs.length ≤ n := by simp at hn; omega
    have hlen2 : (d :: cs).length ≤ n := by simp at hn; simp; omega
    have hsuf1 : cs <:+: c :: d :: cs :=
      List.IsSuffix.isInfix ((List.suffix_cons d cs).trans (List.suffix_cons c _))
    have hsuf2 : (d :: cs) <:+: c :: d :: cs :=
      List.IsSuffix.isInfix (List.suffix_cons c _)
    have hpair_cd : [c, d] <:+: c :: d :: cs :=
      List.IsPrefix.isInfix (pair_prefix_build c d cs)
    by_cases hcond : (isPunct c && !isPyWS d) = true
    · have hc2 : isPunct c = true ∧ isPyWS d = false := by simpa using hcond
      have hcn : isPyWS c = false := punct_not_ws hc2.1
      rw [sap_match hcond, dwg_nonws hcn, dwg_ws (show isPyWS ' ' = true by decide)]
      by_cases hdp : isPunct d = true
      · rw [dwr_punct [' '] hc2.2 hdp, sap_match hcond,
          sap_del_sap_aux n cs hlen1 (NWP_mono hsuf1 hNWP) (NoWW_mono hsuf1 hNoWW)]
      · have hdp' : isPunct d = false := by simpa using hdp
        rw [dwr_other [' '] hc2.2 hdp', List.singleton_append,
          sap_nomatch (by simp [show isPyWS ' ' = true from by decide]),
          sap_cons_nonpunct (show isPunct ' ' = false by decide),
          sap_cons_nonpunct hdp',
          sap_del_sap_aux n cs hlen1 (NWP_mono hsuf1 hNWP) (NoWW_mono hsuf1 hNoWW)]
    · rw [sap_nomatch hcond]
      by_cases hcw : isPyWS c = true
      · have hcnp : isPunct c = false := ws_not_punct hcw
        have hdnw : isPyWS d = false := by
          by_contra hdnw
          exact hNoWW c d hpair_cd ⟨hcw, by simpa using hdnw⟩
        have hdnp : isPunct d = false := by
          by_contra hdnp
          exact hNWP c d hpair_cd ⟨hcw, by simpa using hdnp⟩
        rw [sap_cons_nonpunct hdnp, dwg_ws hcw, dwr_other [c] hdnw hdnp,
          List.singleton_append, sap_nomatch (by simp [hcnp]),
          sap_cons_nonpunct hdnp,
          sap_del_sap_aux n cs hlen1 (NWP_mono hsuf1 hNWP) (NoWW_mono hsuf1 hNoWW)]
      · have hcw' : isPyWS c = false := by simpa using hcw
        by_cases hcp : isPunct c = true
        · have hdw : isPyWS d = true := by
            by_contra hdw
            exact hcond (by simp [hcp, by simpa using hdw])
          have hdnp : isPunct d = false := ws_not_punct hdw
          rw [sap_cons_nonpunct hdnp, dwg_nonws hcw', dwg_ws hdw]
          cases cs with
          | nil =>
            have h0 : spaceAfterPunct [] = ([] : Str) := rfl
            rw [h0, dwr_nil, sap_nomatch (by simp [hdw])]
            rfl
          | cons e cs₂ =>
            have hlen3 : cs₂.length ≤ n := by
              simp at hlen1
              omega
            have hsuf3 : cs₂ <:+: c :: d :: e :: cs₂ :=
              List.IsSuffix.isInfix (((List.suffix_cons e cs₂).trans
                (List.suffix_cons d _)).trans (List.suffix_cons c _))
            have hpair_de : [d, e] <:+: c :: d :: e :: cs₂ :=
              (List.IsPrefix.isInfix (pair_prefix_build d e cs₂)).trans
                (List.IsSuffix.isInfix (List.suffix_cons c _))
            have henw : isPyWS e = false := by
              by_contra henw
              exact hNoWW d e hpair_de ⟨hdw, by simpa using henw⟩
            have henp : isPunct e = false := by
              by_contra henp
              exact hNWP d e hpair_de ⟨hdw, by simpa using henp⟩
            rw [sap_cons_nonpunct henp, dwr_other [d] henw henp,
              List.singleton_append, sap_nomatch (by simp [hdw]),
              sap_nomatch (by simp [hdnp]), sap_cons_nonpunct henp,
              sap_del_sap_aux n cs₂ hlen3 (NWP_mono hsuf3 hNWP)
                (NoWW_mono hsuf3 hNoWW)]
        · have hcp' : isPunct c = false := by simpa using hcp
          rw [dwg_nonws hcw', sap_cons_nonpunct hcp',
            sap_del_sap_aux n (d :: cs) hlen2 (NWP_mono hsuf2 hNWP)
              (NoWW_mono hsuf2 hNoWW)]

theorem getLast_cons_of_ne {T : Str} (h : T ≠ []) (a : Char) :
    (a :: T).getLast? = T.getLast? := by
  cases T with
  | nil => exact absurd rfl h
  | cons t ts => rw [List.getLast?_cons_cons]

theorem sap_head (s : Str) : (spaceAfterPunct s).head? = s.head? := by
  cases s with
  | nil => rfl
  | cons c cs =>
    obtain ⟨t, ht⟩ := head_sap c cs
    rw [ht]
    rfl

theorem rstrip_getLast_not {X : Str} {c : Char} (h : (rstrip X).getLast? = some c) :
    isPyWS c = false := by
  rw [← List.head?_reverse (rstrip X), rstrip, List.reverse_reverse] at h
  cases hd : X.reverse.dropWhile isPyWS with
  | nil =>
    rw [hd] at h
    simp at h
  | cons e t =>
    rw [hd] at h
    have he : e = c := by simpa using h
    rw [← he]
    exact dropWhile_head_not hd

theorem Stripped_strip (s : Str) : Stripped (strip s) := by
  constructor
  · intro c hc
    cases hs : strip s with
    | nil =>
      rw [hs] at hc
      simp at hc
    | cons c0 t0 =>
      rw [hs] at hc
      have hc0 : c0 = c := by simpa using hc
      subst hc0
      obtain ⟨t, ht⟩ := rstrip_prefix_self (lstrip s)
      rw [strip] at hs
      rw [hs] at ht
      have hls : lstrip s = c0 :: (t0 ++ t) := by
        rw [← ht, List.cons_append]
      rw [lstrip] at hls
      exact dropWhile_head_not hls
  · intro c hc
    rw [strip] at hc
    exact rstrip_getLast_not hc

theorem lstrip_fix {s : Str} (h : ∀ c, s.head? = some c → isPyWS c = false) :
    lstrip s = s := by
  cases s with
  | nil => rfl
  | cons c cs =>
    rw [lstrip, List.dropWhile_cons_of_neg (by simp [h c rfl])]

theorem strip_fix {s : Str} (h : Stripped s) : strip s = s := by
  rw [strip, lstrip_fix h.1, rstrip_eq_self_of_last ?_]
  intro c hc
  exact h.2 c hc

theorem collapse_fix : ∀ s, AllWsSpace s → NoWW s → collapseGo false s = s
  | [], _, _ => rfl
  | c :: cs, hA, hN => by
    have hAcs : AllWsSpace cs :=
      AllWsSpace_mono (fun x hx => List.mem_cons_of_mem _ hx) hA
    have hNcs : NoWW cs := NoWW_mono (List.IsSuffix.isInfix (List.suffix_cons c cs)) hN
    by_cases hc : isPyWS c = true
    · have hcsp : c = ' ' := hA c (List.mem_cons_self _ _) hc
      rw [cg_ws_false hc]
      cases cs with
      | nil =>
        rw [hcsp]
        rfl
      | cons e t =>
        have hen : isPyWS e = false := by
          by_contra hen
          exact hN c e (List.IsPrefix.isInfix (pair_prefix_build c e t))
            ⟨hc, by simpa using hen⟩
        have h1 : collapseGo true (e :: t) = collapseGo false (e :: t) := by
          rw [cg_nonws hen, cg_nonws hen]
        rw [h1, collapse_fix (e :: t) hAcs hNcs, hcsp]
    · rw [cg_nonws (by simpa using hc), collapse_fix cs hAcs hNcs]

/-- `clean_spacing` is idempotent. -/
theorem clean_spacing_idem (s : Str) : clean_spacing (clean_spacing s) = clean_spacing s := by
  have hK : clean_spacing s =
      spaceAfterPunct (strip (collapseWS (delWsGo s))) := by
    rw [clean_spacing, delWsBeforePunct, collapseWS_sap, strip_sap]
  set K := strip (collapseWS (delWsGo s)) with hKdef
  have hNWPK : NWP K := by
    rw [hKdef]
    exact NWP_mono (strip_infix_self _) (NWP_collapseGo false (NWP_delWsGo s))
  have hNoWWK : NoWW K := by
    rw [hKdef]
    exact NoWW_mono (strip_infix_self _) (NoWW_collapseGo false (delWsGo s))
  have hAK : AllWsSpace K := by
    rw [hKdef]
    exact AllWsSpace_mono (List.IsInfix.subset (strip_infix_self _))
      (AllWsSpace_collapseGo false (delWsGo s))
  have hSK : Stripped K := by
    rw [hKdef]
    exact Stripped_strip _
  have hmain : spaceAfterPunct (delWsGo (spaceAfterPunct K)) = spaceAfterPunct K :=
    sap_del_sap_aux K.length K le_rfl hNWPK hNoWWK
  have hAO : AllWsSpace (spaceAfterPunct K) := AllWsSpace_sap hAK
  have hNoWWO : NoWW (spaceAfterPunct K) := NoWW_sap hNoWWK
  have hSO : Stripped (spaceAfterPunct K) := by
    constructor
    · intro c hc
      rw [sap_head] at hc
      exact hSK.1 c hc
    · intro c hc
      rw [sap_getLast] at hc
      exact hSK.2 c hc
  rw [hK, clean_spacing, delWsBeforePunct, hmain, collapseWS,
    collapse_fix _ hAO hNoWWO, strip_fix hSO]

theorem pyLower_idem (c : Char) : pyLower (pyLower c) = pyLower c := by
  by_cases h : 65 ≤ c.toNat ∧ c.toNat ≤ 90
  · have h1 := pyLower_toNat_of_upper h.1 h.2
    apply pyLower_eq_self_of_not_upper
    omega
  · have h2 := pyLower_eq_self_of_not_upper h
    rw [h2, h2]

theorem strLower_idem (s : Str) : strLower (strLower s) = strLower s := by
  rw [strLower, strLower, List.map_map]
  exact List.map_congr_left (fun a _ => pyLower_idem a)

theorem getLast_map (f : Char → Char) (l : Str) :
    (l.map f).getLast? = l.getLast?.map f := by
  rw [← List.head?_reverse (l.map f), ← List.map_reverse, List.head?_map,
    List.head?_reverse]

theorem pair_of_map {f : Char → Char} {p q : Char} {s : Str}
    (h : [p, q] <:+: s.map f) :
    ∃ a b, [a, b] <:+: s ∧ f a = p ∧ f b = q := by
  induction s with
  | nil =>
    rw [List.map_nil] at h
    have h2 := List.eq_nil_of_infix_nil h
    simp at h2
  | cons x xs ih =>
    rw [List.map_cons] at h
    rcases List.infix_cons_iff.mp h with hp | h1
    · obtain ⟨h1, hp2⟩ := List.cons_prefix_cons.mp hp
      cases xs with
      | nil =>
        rw [List.map_nil, List.prefix_nil] at hp2
        simp at hp2
      | cons y ys =>
        rw [List.map_cons] at hp2
        obtain ⟨h2, _⟩ := List.cons_prefix_cons.mp hp2
        exact ⟨x, y, List.IsPrefix.isInfix (pair_prefix_build x y ys), h1.symm, h2.symm⟩
    · obtain ⟨a, b, hab, ha, hb⟩ := ih h1
      exact ⟨a, b, hab.trans (List.IsSuffix.isInfix (List.suffix_cons x xs)), ha, hb⟩

theorem collapse_head_of_nonws {w : Str}
    (h : ∀ e, w.head? = some e → isPyWS e = false) :
    (collapseGo false w).head? = w.head? := by
  cases w with
  | nil => rfl
  | cons c cs =>
    rw [cg_nonws (h c rfl)]
    rfl

theorem collapse_getLast_of_nonws :
    ∀ w : Str, (∀ e, w.getLast? = some e → isPyWS e = false) →
    ∀ b, (collapseGo b w).getLast? = w.getLast?
  | [], _, b => by
    have h1 : collapseGo b [] = ([] : Str) := rfl
    rw [h1]
  | [c], hL, b => by
    have hc : isPyWS c = false := hL c rfl
    rw [cg_nonws hc]
    have h1 : collapseGo false [] = ([] : Str) := rfl
    rw [h1]
  | c :: d :: t, hL, b => by
    have hL2 : ∀ e, (d :: t).getLast? = some e → isPyWS e = false := by
      intro e he
      apply hL e
      rw [List.getLast?_cons_cons]
      exact he
    have hcseq : (c :: d :: t).getLast? = (d :: t).getLast? := List.getLast?_cons_cons
    have hsome : ((d : Char) :: t).getLast?.isSome := List.getLast?_isSome.mpr (by simp)
    by_cases hc : isPyWS c = true
    · cases b with
      | true =>
        rw [cg_ws_true hc, collapse_getLast_of_nonws (d :: t) hL2 true, hcseq]
      | false =>
        rw [cg_ws_false hc]
        have hIH := collapse_getLast_of_nonws (d :: t) hL2 true
        have hne : collapseGo true (d :: t) ≠ [] := by
          intro hnil
          rw [hnil] at hIH
          rw [← hIH] at hsome
          simp at hsome
        rw [getLast_cons_of_ne hne, hIH, hcseq]
    · rw [cg_nonws (by simpa using hc)]
      have hIH := collapse_getLast_of_nonws (d :: t) hL2 false
      have hne : collapseGo false (d :: t) ≠ [] := by
        intro hnil
        rw [hnil] at hIH
        rw [← hIH] at hsome
        simp at hsome
      rw [getLast_cons_of_ne hne, hIH, hcseq]

/-- `normalize_text` is idempotent. -/
theorem normalize_text_idem (x : Str) :
    normalize_text (normalize_text x) = normalize_text x := by
  have hS := Stripped_strip x
  set z := collapseWS (strip x) with hzdef
  have hzhead : z.head? = (strip x).head? := collapse_head_of_nonws hS.1
  have hzlast : z.getLast? = (strip x).getLast? := by
    rw [hzdef, collapseWS]
    exact collapse_getLast_of_nonws (strip x) hS.2 false
  have hSy : Stripped (strLower z) := by
    constructor
    · intro c hc
      rw [strLower, List.head?_map, hzhead] at hc
      cases hh : (strip x).head? with
      | none =>
        rw [hh] at hc
        simp at hc
      | some c₀ =>
        rw [hh] at hc
        have hc₀ : pyLower c₀ = c := by simpa using hc
        rw [← hc₀, isPyWS_pyLower]
        exact hS.1 c₀ hh
    · intro c hc
      rw [strLower, getLast_map, hzlast] at hc
      cases hh : (strip x).getLast? with
      | none =>
        rw [hh] at hc
        simp at hc
      | some c₀ =>
        rw [hh] at hc
        have hc₀ : pyLower c₀ = c := by simpa using hc
        rw [← hc₀, isPyWS_pyLower]
        exact hS.2 c₀ hh
  have hAy : AllWsSpace (strLower z) := by
    intro c hc hws
    rw [strLower] at hc
    obtain ⟨c₀, hc₀z, hc₀⟩ := List.mem_map.mp hc
    rw [← hc₀, isPyWS_pyLower] at hws
    have : c₀ = ' ' := AllWsSpace_collapseGo false (strip x) c₀ hc₀z hws
    rw [← hc₀, this]
    rfl
  have hNy : NoWW (strLower z) := by
    intro p q hpq hcontra
    rw [strLower] at hpq
    obtain ⟨a, b, hab, ha, hb⟩ := pair_of_map hpq
    refine NoWW_collapseGo false (strip x) a b hab ⟨?_, ?_⟩
    · rw [← isPyWS_pyLower, ha]
      exact hcontra.1
    · rw [← isPyWS_pyLower, hb]
      exact hcontra.2
  rw [normalize_text, normalize_text, strip_fix hSy, collapseWS,
    collapse_fix _ hAy hNy, strLower_idem]

/-- C8: The normalization transforms are idempotent: for every string `x`,
`normalize_text (normalize_text x) = normalize_text x`, and likewise
`clean_spacing (clean_spacing x) = clean_spacing x`. -/
theorem normalization_transforms_idempotent (x : Str) :
    normalize_text (normalize_text x) = normalize_text x ∧
    clean_spacing (clean_spacing x) = clean_spacing x :=
  ⟨normalize_text_idem x, clean_spacing_idem x⟩
